import Mathlib

/-!
Verification of the Subversion working-copy update editor (`update_editor.c`)
against its natural-language specification.

The development shallowly embeds the editor's data model and operations:
pure slices of the C functions become Lean functions; effects performed
through external collaborators (the entries store, the pristine store, the
log runner, path utilities from `svn_path.h`, MD5 from `svn_md5.h`) are
modelled as explicit environment records or abstract injective encodings,
following the collaborator contracts stated in the specification.  Paths and
repository URLs are modelled as lists of components (`svn_path_join` is list
append, `svn_path_basename` is the last component, `svn_path_dirname` drops
the last component).
-/

set_option maxHeartbeats 1000000

namespace UpdateEditor

/-- Error codes raised or inspected by the update editor (§7 of the spec). -/
inductive ErrCode where
  | obstructedUpdate
  | entryNotFound
  | entryMissingUrl
  | unsupportedFeature
  | corruptTextBase
  | checksumMismatch
  | leftLocalMod
  | cancelled
  | genericErr (n : Nat)
deriving Repr, DecidableEq

/-- Node kinds as reported by `svn_io_check_path` / stored in entries. -/
inductive NodeKind where
  | nodeNone
  | nodeFile
  | nodeDir
  | nodeUnknown
deriving Repr, DecidableEq

/-- Entry schedule states. -/
inductive Schedule where
  | normal
  | scheduleAdd
  | scheduleDelete
  | scheduleReplace
deriving Repr, DecidableEq

/-- A checksum string.  `hexOf d` is the MD5-hex rendering of digest `d`,
`b64Of d` the legacy MD5-base64 rendering; both renderings are injective
with disjoint ranges, which is all the editor relies on.  `other` covers
arbitrary unrelated strings. -/
inductive ChkStr where
  | hexOf (d : List Nat)
  | b64Of (d : List Nat)
  | other (s : String)
deriving Repr, DecidableEq

/-- Modelled from the spec: `svn_md5_digest_to_cstring` renders an MD5 digest
as its hex string (`svn_md5.c` is not part of this repository slice; the
spec's §4.6 says the running digest is compared against the declared
checksum). -/
def svn_md5_digest_to_cstring (d : List Nat) : Option ChkStr :=
  some (ChkStr.hexOf d)

/-- Modelled from the spec: `svn_base64_from_md5` renders an MD5 digest in the
legacy base64 form (§4.5 step 1 of the spec). -/
def svn_base64_from_md5 (d : List Nat) : ChkStr :=
  ChkStr.b64Of d

/-- The fields of a versioned entry that the update editor reads (§6,
collaborator contract of the entries store). -/
structure WcEntry where
  kind : NodeKind
  url : Option (List String)
  schedule : Schedule
  deleted : Bool
  incomplete : Bool
  checksum : Option ChkStr
  revision : Nat
deriving Repr, DecidableEq

/-- A default entry record, for fields `svn_wc__entry_modify` leaves at their
zeroed initial values when creating a fresh entry. -/
def WcEntry.blank : WcEntry :=
  { kind := NodeKind.nodeNone, url := none, schedule := Schedule.normal,
    deleted := false, incomplete := false, checksum := none, revision := 0 }

/-- Association-list lookup for an entries table (`apr_hash_get`). -/
def lookupEntry : List (String × WcEntry) → String → Option WcEntry
  | [], _ => none
  | p :: ps, name => if p.1 = name then some p.2 else lookupEntry ps name

/-- Basename of a component-list path (`svn_path_basename`). -/
def lastComponent (p : List String) : String :=
  (p.getLast?).getD ""

/-! ## C2 — `close_file`: final text checksum comparison -/

/-- The `close_file` callback (`update_editor.c`).  The checksum comparison at
its head is embedded directly; the remainder of the body (`install_file`,
the bump of the directory's reference count, notification) is abstracted as
`rest`, the outcome the call has when the check passes. -/
def close_file (fb_text_changed : Bool) (fb_digest : List Nat)
    (text_checksum : Option ChkStr) (rest : Except ErrCode Unit) :
    Except ErrCode Unit :=
  if fb_text_changed then
    match text_checksum with
    | some tc =>
      match svn_md5_digest_to_cstring fb_digest with
      | some real_sum =>
        if tc ≠ real_sum then Except.error ErrCode.checksumMismatch else rest
      | none => rest
    | none => rest
  else rest

/-! ## C3 — `apply_textdelta`: text-base checksum verification -/

/-- The checksum-verification prefix of `apply_textdelta`
(`update_editor.c`): `ent` is the file's current entry (if any),
`base_checksum` the checksum supplied by the driver, and `textBaseDigest`
the MD5 digest of the current on-disk text-base as computed by
`svn_io_file_checksum`.  Returns `ok` when control reaches the
delta-pipeline set-up. -/
def apply_textdelta_checks (ent : Option WcEntry) (base_checksum : Option ChkStr)
    (textBaseDigest : List Nat) : Except ErrCode Unit :=
  match ent with
  | none => Except.ok ()
  | some e =>
    match e.checksum with
    | none => Except.ok ()
    | some stored =>
      let hex_digest := ChkStr.hexOf textBaseDigest
      if (match base_checksum with
          | some bc => hex_digest != bc
          | none => false) then
        Except.error ErrCode.corruptTextBase
      else if hex_digest ≠ stored ∧ svn_base64_from_md5 textBaseDigest ≠ stored then
        Except.error ErrCode.corruptTextBase
      else
        Except.ok ()

/-! ## C10 — `change_file_prop`: committed-date caching -/

/-- Property names, with the classification into the three disjoint
namespaces (regular / entry / wc) that `svn_categorize_props` performs.
Modelled from the spec (§3, PropertyChange): the classifier lives in
`libsvn_subr`, outside this repository slice. -/
inductive PName where
  | externals
  | committedDate
  | lastAuthor
  | committedRev
  | uuidName
  | otherEntry (n : Nat)
  | wcProp (n : Nat)
  | regularProp (n : Nat)
deriving Repr, DecidableEq

/-- Property namespaces. -/
inductive PropKind where
  | regular
  | entry
  | wc
deriving Repr, DecidableEq

/-- Namespace of each property name (the classification function of
`svn_categorize_props`). -/
def propKind : PName → PropKind
  | PName.externals => PropKind.regular
  | PName.regularProp _ => PropKind.regular
  | PName.committedDate => PropKind.entry
  | PName.lastAuthor => PropKind.entry
  | PName.committedRev => PropKind.entry
  | PName.uuidName => PropKind.entry
  | PName.otherEntry _ => PropKind.entry
  | PName.wcProp _ => PropKind.wc

/-- One property change: a name and a value, `none` being the tombstone. -/
structure PropChange where
  name : PName
  value : Option String
deriving Repr, DecidableEq

/-- The slice of the per-file state that `change_file_prop` touches. -/
structure FbProps where
  propchanges : List PropChange
  prop_changed : Bool
  last_changed_date : Option String
deriving Repr, DecidableEq

/-- The `change_file_prop` callback (`update_editor.c`).  The result is
`none` when the call dereferences a null `value` (the unconditional
`value->data` read while caching the commit date), and `some` of the updated
file state otherwise. -/
def change_file_prop (use_commit_times : Bool) (fb : FbProps)
    (name : PName) (value : Option String) : Option FbProps :=
  let fb1 : FbProps :=
    { fb with propchanges := fb.propchanges ++ [⟨name, value⟩], prop_changed := true }
  if use_commit_times ∧ name = PName.committedDate then
    match value with
    | none => none
    | some v => some { fb1 with last_changed_date := some v }
  else
    some fb1

/-! ## Theorems for C2, C3, C10 -/

/-- C2: in `close_file`, when the file's text changed and the driver supplied
an expected checksum, a digest that differs from the supplied checksum makes
the call fail with CHECKSUM_MISMATCH; in every other case (text unchanged,
no declared checksum, or matching digest) the checksum check does not make
`close_file` fail — the call proceeds to the rest of its body. -/
theorem c2_close_file_checksum (tch : Bool) (dg : List Nat) (cks : Option ChkStr)
    (rest : Except ErrCode Unit) :
    (tch = true → ∀ c, cks = some c → c ≠ ChkStr.hexOf dg →
      close_file tch dg cks rest = Except.error ErrCode.checksumMismatch)
    ∧ ((tch = false ∨ cks = none ∨ cks = some (ChkStr.hexOf dg)) →
      close_file tch dg cks rest = rest) := by
  constructor
  · intro ht c hc hne
    subst ht hc
    simp [close_file, svn_md5_digest_to_cstring, hne]
  · rintro (ht | hc | hc)
    · subst ht; simp [close_file]
    · subst hc; cases tch <;> simp [close_file]
    · subst hc; cases tch <;> simp [close_file, svn_md5_digest_to_cstring]

/-- Witness for C2 at concrete inputs: digest `[1]` against declared checksum
`hex [2]` fails with CHECKSUM_MISMATCH, and against a matching declared
checksum the call proceeds. -/
theorem c2_close_file_checksum_witness :
    close_file true [1] (some (ChkStr.hexOf [2])) (Except.ok ())
      = Except.error ErrCode.checksumMismatch
    ∧ close_file true [1] (some (ChkStr.hexOf [1])) (Except.ok ()) = Except.ok () :=
  ⟨(c2_close_file_checksum true [1] (some (ChkStr.hexOf [2])) (Except.ok ())).1
      rfl _ rfl (by decide),
   (c2_close_file_checksum true [1] (some (ChkStr.hexOf [1])) (Except.ok ())).2
      (Or.inr (Or.inr rfl))⟩

/-- C3 counterexample: the claim says the driver-supplied `base_checksum` is
always verified, but `apply_textdelta` only performs that comparison inside
the branch requiring an existing entry with a stored checksum.  With no
entry at all and a mismatching supplied checksum (`hex [1]` declared, actual
text-base digest `[0]`), the call succeeds instead of failing with
CORRUPT_TEXT_BASE. -/
theorem c3_counterexample :
    apply_textdelta_checks none (some (ChkStr.hexOf [1])) [0] = Except.ok ()
    ∧ ChkStr.hexOf [1] ≠ ChkStr.hexOf [0] := by
  constructor
  · rfl
  · decide

/-- C3 (amended): in `apply_textdelta`, when the file's entry exists and
records a stored checksum, (a) a supplied `base_checksum` differing from the
hex digest of the on-disk text-base fails with CORRUPT_TEXT_BASE; (b) if the
supplied checksum (when any) matches, a stored checksum matching neither the
MD5-hex nor the legacy MD5-base64 rendering fails with CORRUPT_TEXT_BASE;
(c) otherwise the verification passes.  Without an entry, or with an entry
that records no checksum, no verification occurs at all — in particular the
supplied `base_checksum` is not checked. -/
theorem c3_apply_textdelta_checks (e : WcEntry) (bc : Option ChkStr) (d : List Nat) :
    (∀ stored, e.checksum = some stored →
      ((∃ b, bc = some b ∧ b ≠ ChkStr.hexOf d) →
        apply_textdelta_checks (some e) bc d = Except.error ErrCode.corruptTextBase)
      ∧ ((∀ b, bc = some b → b = ChkStr.hexOf d) →
          stored ≠ ChkStr.hexOf d → stored ≠ ChkStr.b64Of d →
          apply_textdelta_checks (some e) bc d = Except.error ErrCode.corruptTextBase)
      ∧ ((∀ b, bc = some b → b = ChkStr.hexOf d) →
          (stored = ChkStr.hexOf d ∨ stored = ChkStr.b64Of d) →
          apply_textdelta_checks (some e) bc d = Except.ok ()))
    ∧ (e.checksum = none → apply_textdelta_checks (some e) bc d = Except.ok ())
    ∧ apply_textdelta_checks none bc d = Except.ok () := by
  refine ⟨?_, ?_, rfl⟩
  · intro stored hst
    refine ⟨?_, ?_, ?_⟩
    · rintro ⟨b, hb, hne⟩
      subst hb
      have hb' : (ChkStr.hexOf d != b) = true := by
        simp only [bne_iff_ne, ne_eq]
        exact fun h => hne h.symm
      simp [apply_textdelta_checks, hst, hb']
    · intro hbc hne1 hne2
      have hne1' : ¬ChkStr.hexOf d = stored := fun h => hne1 h.symm
      have hne2' : ¬ChkStr.b64Of d = stored := fun h => hne2 h.symm
      cases bc with
      | none => simp [apply_textdelta_checks, hst, svn_base64_from_md5, hne1', hne2']
      | some b =>
        have hb := hbc b rfl
        subst hb
        simp [apply_textdelta_checks, hst, svn_base64_from_md5, hne1', hne2']
    · intro hbc hmatch
      cases bc with
      | none =>
        rcases hmatch with h | h <;>
          simp [apply_textdelta_checks, hst, svn_base64_from_md5, h]
      | some b =>
        have hb := hbc b rfl
        subst hb
        rcases hmatch with h | h <;>
          simp [apply_textdelta_checks, hst, svn_base64_from_md5, h]
  · intro hnone
    simp [apply_textdelta_checks, hnone]

/-- Witness for C3 (amended) at concrete inputs: a stored hex checksum `[2]`
with actual digest `[0]` and no supplied base checksum fails with
CORRUPT_TEXT_BASE; a stored legacy base64 checksum of the actual digest
passes. -/
theorem c3_apply_textdelta_checks_witness :
    apply_textdelta_checks
        (some { WcEntry.blank with checksum := some (ChkStr.hexOf [2]) }) none [0]
      = Except.error ErrCode.corruptTextBase
    ∧ apply_textdelta_checks
        (some { WcEntry.blank with checksum := some (ChkStr.b64Of [0]) }) none [0]
      = Except.ok () :=
  ⟨((c3_apply_textdelta_checks
        { WcEntry.blank with checksum := some (ChkStr.hexOf [2]) } none [0]).1
      _ rfl).2.1 (by intro b hb; cases hb) (by decide) (by decide),
   ((c3_apply_textdelta_checks
        { WcEntry.blank with checksum := some (ChkStr.b64Of [0]) } none [0]).1
      _ rfl).2.2 (by intro b hb; cases hb) (Or.inr rfl)⟩

/-- C10: in `change_file_prop`, when the edit's `use_commit_times` flag is
set and the property is the committed-date entry property, the
implementation unconditionally reads `value->data` to cache the commit date,
so the call is safe exactly when the value is not a tombstone: a null value
crashes (modelled as `none`), while a present value succeeds and caches the
date.  In every other case the call always succeeds. -/
theorem c10_change_file_prop_safety (uct : Bool) (fb : FbProps) (name : PName)
    (value : Option String) :
    ((change_file_prop uct fb name value).isSome ↔
      (¬(uct = true ∧ name = PName.committedDate) ∨ value.isSome))
    ∧ (uct = true → name = PName.committedDate → value = none →
        change_file_prop uct fb name value = none)
    ∧ (∀ v, uct = true → name = PName.committedDate → value = some v →
        change_file_prop uct fb name value
          = some { fb with propchanges := fb.propchanges ++ [⟨name, value⟩],
                           prop_changed := true, last_changed_date := some v }) := by
  refine ⟨?_, ?_, ?_⟩
  · by_cases h : uct = true ∧ name = PName.committedDate
    · obtain ⟨h1, h2⟩ := h
      subst h1; subst h2
      cases value <;> simp [change_file_prop]
    · have : ¬(uct ∧ name = PName.committedDate) := by
        simpa using h
      simp [change_file_prop, this, h]
  · intro h1 h2 h3
    subst h1; subst h2; subst h3
    simp [change_file_prop]
  · intro v h1 h2 h3
    subst h1; subst h2; subst h3
    simp [change_file_prop]

/-- Witness for C10 at concrete inputs: with `use_commit_times` set, a
tombstone committed-date value crashes while a present value succeeds. -/
theorem c10_change_file_prop_safety_witness :
    change_file_prop true ⟨[], false, none⟩ PName.committedDate none = none
    ∧ (change_file_prop true ⟨[], false, none⟩ PName.committedDate
        (some "2003-01-01")).isSome = true :=
  ⟨(c10_change_file_prop_safety true ⟨[], false, none⟩ PName.committedDate none).2.1
      rfl rfl rfl,
   by
    have := (c10_change_file_prop_safety true ⟨[], false, none⟩ PName.committedDate
        (some "2003-01-01")).2.2 "2003-01-01" rfl rfl rfl
    simp [this]⟩

/-! ## C4 — `window_handler`: the wrapper around the delta-apply handler -/

/-- Environment of one `handler_baton`: the behaviour of the inner
`apply_handler` produced by `svn_txdelta_apply` (its error result as a
function of the incoming window, `none` meaning the end-of-stream marker),
whether a source text-base stream was opened, and the results of the two
`svn_wc__close_text_base` calls. -/
structure HandlerEnv where
  applyErr : Option Nat → Option ErrCode
  sourcePresent : Bool
  closeSourceErr : Option ErrCode
  closeDestErr : Option ErrCode

/-- The slice of the file baton that `window_handler` touches. -/
structure FbText where
  text_changed : Bool
deriving Repr, DecidableEq

/-- The wrapper `window_handler` (`update_editor.c`) for a single incoming
window (`none` = end-of-stream).  Returns the error handed back to the
driver, the updated file baton, and whether the temporary new text-base was
deleted. -/
def window_handler (env : HandlerEnv) (window : Option Nat) (fb : FbText) :
    Option ErrCode × FbText × Bool :=
  let err := env.applyErr window
  if window.isSome ∧ err = none then
    (none, fb, false)
  else
    let err1 :=
      if env.sourcePresent then
        match env.closeSourceErr with
        | some e2 => if err = none then some e2 else err
        | none => err
      else err
    let err2 :=
      match env.closeDestErr with
      | some e2 => if err1 = none then some e2 else err1
      | none => err1
    match err2 with
    | some e => (some e, fb, true)
    | none => (none, { fb with text_changed := true }, false)

/-- Feed a sequence of calls (windows, then the final `none`) through
`window_handler`, stopping at the first error as the driver does. -/
def runHandlerCalls (env : HandlerEnv) (fb : FbText) :
    List (Option Nat) → FbText × Option ErrCode
  | [] => (fb, none)
  | w :: ws =>
    match window_handler env w fb with
    | (some e, fb1, _) => (fb1, some e)
    | (none, fb1, _) => runHandlerCalls env fb1 ws

/-- Drive a whole text-delta stream: each window of `windows` in turn, then
the terminating null window, starting from a fresh file baton. -/
def driveTextDelta (env : HandlerEnv) (windows : List Nat) : FbText × Option ErrCode :=
  runHandlerCalls env ⟨false⟩ (windows.map some ++ [none])

/-- A handler environment in which the inner handler and both stream closes
always succeed. -/
def cleanHandlerEnv : HandlerEnv :=
  { applyErr := fun _ => none, sourcePresent := true,
    closeSourceErr := none, closeDestErr := none }

/-- C4 counterexample: the claim says `text_changed` ends up set only when
the stream yielded at least one window, but `window_handler` sets the flag
on any clean end-of-stream — including a stream of zero windows.  Driving an
empty window stream (only the terminating null window) through the wrapper
sets `text_changed` even though no window was ever delivered. -/
theorem c4_counterexample :
    (driveTextDelta cleanHandlerEnv []).1.text_changed = true
    ∧ ([] : List Nat).length = 0 := by
  constructor
  · rfl
  · rfl

/-- The terminating null-window call completes cleanly: the inner handler
accepts the end-of-stream marker and both text-base streams close without
error. -/
def EndClean (env : HandlerEnv) : Prop :=
  env.applyErr none = none
  ∧ (env.sourcePresent = true → env.closeSourceErr = none)
  ∧ env.closeDestErr = none

instance (env : HandlerEnv) : Decidable (EndClean env) := by
  unfold EndClean; infer_instance

/-- A mid-stream window accepted by the inner handler passes straight
through the wrapper. -/
theorem window_handler_ok (env : HandlerEnv) (w : Nat) (fb : FbText)
    (h : env.applyErr (some w) = none) :
    window_handler env (some w) fb = (none, fb, false) := by
  simp [window_handler, h]

/-- A mid-stream window rejected by the inner handler makes the wrapper
clean up, delete the temporary text-base, and propagate the original
error — never setting `text_changed`. -/
theorem window_handler_mid_err (env : HandlerEnv) (w : Nat) (fb : FbText)
    (e : ErrCode) (h : env.applyErr (some w) = some e) :
    window_handler env (some w) fb = (some e, fb, true) := by
  cases hs : env.sourcePresent <;>
    cases hcs : env.closeSourceErr <;>
      cases hcd : env.closeDestErr <;>
        simp [window_handler, h, hs, hcs, hcd]

/-- Error reported by the wrapper's end-of-stream cleanup: the inner
handler's error on the null window, or failing that, the first stream-close
error — exactly the error bookkeeping of `window_handler`. -/
def endErr (env : HandlerEnv) : Option ErrCode :=
  let err := env.applyErr none
  let err1 :=
    if env.sourcePresent then
      match env.closeSourceErr with
      | some e2 => if err = none then some e2 else err
      | none => err
    else err
  match env.closeDestErr with
  | some e2 => if err1 = none then some e2 else err1
  | none => err1

/-- The end-of-stream call cleans up and either sets `text_changed` (no
error anywhere) or deletes the temporary text-base and reports `endErr`. -/
theorem window_handler_none (env : HandlerEnv) (fb : FbText) :
    window_handler env none fb =
      match endErr env with
      | some e => (some e, fb, true)
      | none => (none, { fb with text_changed := true }, false) := by
  simp only [window_handler, endErr, Option.isSome_none, Bool.false_eq_true,
    false_and, if_false]

/-- The cleanup error is absent exactly when the end-of-stream call is
clean. -/
theorem endErr_eq_none_iff (env : HandlerEnv) :
    endErr env = none ↔ EndClean env := by
  unfold endErr EndClean
  cases ha : env.applyErr none <;>
    cases hs : env.sourcePresent <;>
      cases hcs : env.closeSourceErr <;>
        cases hcd : env.closeDestErr <;>
          simp [ha, hs, hcs, hcd]

/-- A clean end-of-stream call sets `text_changed` and reports no error. -/
theorem window_handler_end_ok (env : HandlerEnv) (fb : FbText)
    (h : EndClean env) :
    window_handler env none fb = (none, { fb with text_changed := true }, false) := by
  rw [window_handler_none, (endErr_eq_none_iff env).mpr h]

/-- An end-of-stream call that fails (inner handler error on the null
window, or a stream-close error) reports an error, deletes the temporary
text-base, and leaves `text_changed` untouched. -/
theorem window_handler_end_err (env : HandlerEnv) (fb : FbText)
    (h : ¬EndClean env) :
    ∃ e, window_handler env none fb = (some e, fb, true) := by
  cases he : endErr env with
  | none => exact absurd ((endErr_eq_none_iff env).mp he) h
  | some e =>
    refine ⟨e, ?_⟩
    rw [window_handler_none, he]

/-- If every window of the stream is accepted and the end-of-stream call is
clean, the drive sets `text_changed` and returns no error. -/
theorem runHandlerCalls_all_ok (env : HandlerEnv) :
    ∀ (ws : List Nat) (fb : FbText),
      (∀ w ∈ ws, env.applyErr (some w) = none) → EndClean env →
      runHandlerCalls env fb (ws.map some ++ [none])
        = ({ fb with text_changed := true }, none) := by
  intro ws
  induction ws with
  | nil =>
    intro fb _ hend
    simp [runHandlerCalls, window_handler_end_ok env fb hend]
  | cons w ws ih =>
    intro fb hall hend
    have hw : env.applyErr (some w) = none := hall w (by simp)
    have htail : ∀ w' ∈ ws, env.applyErr (some w') = none := by
      intro w' hw'; exact hall w' (by simp [hw'])
    simp only [List.map_cons, List.cons_append, runHandlerCalls,
      window_handler_ok env w fb hw]
    exact ih fb htail hend

/-- If every window is accepted but the end-of-stream call fails, the drive
returns an error with the file baton unchanged. -/
theorem runHandlerCalls_end_err (env : HandlerEnv) :
    ∀ (ws : List Nat) (fb : FbText),
      (∀ w ∈ ws, env.applyErr (some w) = none) → ¬EndClean env →
      ∃ e, runHandlerCalls env fb (ws.map some ++ [none]) = (fb, some e) := by
  intro ws
  induction ws with
  | nil =>
    intro fb _ hend
    obtain ⟨e, he⟩ := window_handler_end_err env fb hend
    exact ⟨e, by simp [runHandlerCalls, he]⟩
  | cons w ws ih =>
    intro fb hall hend
    have hw : env.applyErr (some w) = none := hall w (by simp)
    have htail : ∀ w' ∈ ws, env.applyErr (some w') = none := by
      intro w' hw'; exact hall w' (by simp [hw'])
    obtain ⟨e, he⟩ := ih fb htail hend
    exact ⟨e, by
      simp only [List.map_cons, List.cons_append, runHandlerCalls,
        window_handler_ok env w fb hw]
      exact he⟩

/-- If some window is rejected by the inner handler, the drive stops with an
error and the file baton unchanged. -/
theorem runHandlerCalls_mid_err (env : HandlerEnv) :
    ∀ (ws : List Nat) (fb : FbText),
      ¬(∀ w ∈ ws, env.applyErr (some w) = none) →
      ∃ e, runHandlerCalls env fb (ws.map some ++ [none]) = (fb, some e) := by
  intro ws
  induction ws with
  | nil =>
    intro fb hall
    exact absurd (by intro w hw; cases hw) hall
  | cons w ws ih =>
    intro fb hall
    cases hw : env.applyErr (some w) with
    | none =>
      have htail : ¬(∀ w' ∈ ws, env.applyErr (some w') = none) := by
        intro hc
        exact hall (by
          intro w' hw'
          rcases List.mem_cons.mp hw' with h | h
          · subst h; exact hw
          · exact hc w' h)
      obtain ⟨e, he⟩ := ih fb htail
      exact ⟨e, by
        simp only [List.map_cons, List.cons_append, runHandlerCalls,
          window_handler_ok env w fb hw]
        exact he⟩
    | some e =>
      exact ⟨e, by
        simp [runHandlerCalls, window_handler_mid_err env w fb e hw]⟩

/-- C4 (amended): for every drive of the wrapper `window_handler` over a
window stream, the FileState's `text_changed` flag ends up set if and only
if the stream reached a clean end-of-stream — every delivered window was
consumed successfully and the terminating null-window call (including the
text-base stream closes) succeeded — regardless of how many windows were
delivered (zero included); and `text_changed` is never set on an errored
stream. -/
theorem c4_window_handler_text_changed (env : HandlerEnv) (ws : List Nat) :
    ((driveTextDelta env ws).1.text_changed = true ↔
      ((∀ w ∈ ws, env.applyErr (some w) = none) ∧ EndClean env))
    ∧ ((driveTextDelta env ws).2 ≠ none →
        (driveTextDelta env ws).1.text_changed = false) := by
  by_cases hall : ∀ w ∈ ws, env.applyErr (some w) = none
  · by_cases hend : EndClean env
    · have h := runHandlerCalls_all_ok env ws ⟨false⟩ hall hend
      unfold driveTextDelta
      rw [h]
      exact ⟨⟨fun _ => ⟨hall, hend⟩, fun _ => rfl⟩, fun hc => absurd rfl hc⟩
    · obtain ⟨e, he⟩ := runHandlerCalls_end_err env ws ⟨false⟩ hall hend
      unfold driveTextDelta
      rw [he]
      exact ⟨⟨fun hc => by simp at hc, fun hp => absurd hp.2 hend⟩,
        fun _ => rfl⟩
  · obtain ⟨e, he⟩ := runHandlerCalls_mid_err env ws ⟨false⟩ hall
    unfold driveTextDelta
    rw [he]
    exact ⟨⟨fun hc => by simp at hc, fun hp => absurd hp.1 hall⟩,
      fun _ => rfl⟩

/-- Witness for C4 (amended) at concrete inputs: with an all-clean
environment, a two-window stream ends with `text_changed` set. -/
theorem c4_window_handler_text_changed_witness :
    (driveTextDelta cleanHandlerEnv [7, 8]).1.text_changed = true :=
  (c4_window_handler_text_changed cleanHandlerEnv [7, 8]).1.mpr
    ⟨by intro w _; rfl, rfl, fun _ => rfl, rfl⟩

/-! ## C9 — `close_directory`: recording externals changes -/

/-- `svn_categorize_props`: partition a property-change list into entry, wc
and regular properties, preserving order. -/
def svn_categorize_props (ps : List PropChange) :
    List PropChange × List PropChange × List PropChange :=
  (ps.filter (fun p => propKind p.name = PropKind.entry),
   ps.filter (fun p => propKind p.name = PropKind.wc),
   ps.filter (fun p => propKind p.name = PropKind.regular))

/-- `externals_prop_changed` (`update_editor.c`): the first change to the
`svn:externals` property in a change list, if any. -/
def externals_prop_changed (propchanges : List PropChange) : Option PropChange :=
  propchanges.find? (fun p => p.name = PName.externals)

/-- The traversal-info collector (`svn_wc_traversal_info_t`): two maps keyed
by directory path. -/
structure TraversalInfo where
  externals_old : List (List String × String)
  externals_new : List (List String × String)
deriving Repr, DecidableEq

/-- `apr_hash_set` on an association list keyed by directory path: replace
the existing binding or append a new one. -/
def hashSet : List (List String × String) → List String → String →
    List (List String × String)
  | [], k, v => [(k, v)]
  | p :: ps, k, v => if p.1 = k then (k, v) :: ps else p :: hashSet ps k v

/-- `apr_hash_get` on a traversal-info map. -/
def hashGet : List (List String × String) → List String → Option String
  | [], _ => none
  | p :: ps, k => if p.1 = k then some p.2 else hashGet ps k

/-- Setting a key makes it present with the stored value. -/
theorem hashGet_hashSet_self (m : List (List String × String)) (k : List String)
    (v : String) : hashGet (hashSet m k v) k = some v := by
  induction m with
  | nil => simp [hashSet, hashGet]
  | cons p ps ih =>
    by_cases hp : p.1 = k
    · simp [hashSet, hashGet, hp]
    · simp [hashSet, hashGet, hp, ih]

/-- The externals-recording slice of `close_directory` (`update_editor.c`):
`ti` is the edit's optional traversal-info collector, `oldVal` the present
value of the externals property on disk (`svn_wc_prop_get`), `dbPath` the
directory's path, `propchanges` the directory's accumulated property
changes.  Returns the collector after the close (`none` when the edit
carries none). -/
def close_directory_externals (ti : Option TraversalInfo) (oldVal : Option String)
    (dbPath : List String) (propchanges : List PropChange) : Option TraversalInfo :=
  let (_entry_props, _wc_props, regular_props) := svn_categorize_props propchanges
  if regular_props.isEmpty then ti
  else
    match ti with
    | none => none
    | some t =>
      match externals_prop_changed regular_props with
      | none => some t
      | some change =>
        let new_val_s := change.value
        let old_val_s := oldVal
        if new_val_s = none ∧ old_val_s = none then some t
        else if (match new_val_s, old_val_s with
                 | some nv, some ov => ov == nv
                 | _, _ => false) then some t
        else
          some { t with
            externals_old :=
              match old_val_s with
              | some ov => hashSet t.externals_old dbPath ov
              | none => t.externals_old,
            externals_new :=
              match new_val_s with
              | some nv => hashSet t.externals_new dbPath nv
              | none => t.externals_new }

/-- C9: in `close_directory`, when the edit carries a traversal-info
collector and the pending regular property changes include a change to the
externals property whose new value genuinely differs from the old on-disk
value, the old and the new value (each when present) are recorded in the
collector's `externals_old` resp. `externals_new` maps under the directory's
path; when the values are equal, or both absent, the collector is left
untouched. -/
theorem c9_close_directory_externals (t : TraversalInfo) (oldVal : Option String)
    (dbPath : List String) (propchanges : List PropChange) (change : PropChange) :
    (externals_prop_changed
        (propchanges.filter (fun p => propKind p.name = PropKind.regular))
      = some change →
      ((¬(change.value = none ∧ oldVal = none) →
        ¬(∃ v, change.value = some v ∧ oldVal = some v) →
        close_directory_externals (some t) oldVal dbPath propchanges
          = some { t with
              externals_old :=
                match oldVal with
                | some ov => hashSet t.externals_old dbPath ov
                | none => t.externals_old,
              externals_new :=
                match change.value with
                | some nv => hashSet t.externals_new dbPath nv
                | none => t.externals_new })
      ∧ ((change.value = none ∧ oldVal = none) ∨ (∃ v, change.value = some v ∧ oldVal = some v) →
          close_directory_externals (some t) oldVal dbPath propchanges = some t)))
    ∧ (∀ v, hashGet (hashSet t.externals_old dbPath v) dbPath = some v)
    ∧ (∀ v, hashGet (hashSet t.externals_new dbPath v) dbPath = some v) := by
  refine ⟨?_, ?_, ?_⟩
  · intro hfind
    have hne : (propchanges.filter
        (fun p => propKind p.name = PropKind.regular)).isEmpty = false := by
      cases hl : propchanges.filter (fun p => propKind p.name = PropKind.regular) with
      | nil => rw [hl] at hfind; cases hfind
      | cons a l => rfl
    constructor
    · intro hdiff heq
      cases hcv : change.value with
      | none =>
        cases hov : oldVal with
        | none => exact absurd ⟨hcv, hov⟩ hdiff
        | some ov =>
          simp [close_directory_externals, svn_categorize_props, hne, hfind, hcv, hov]
      | some nv =>
        cases hov : oldVal with
        | none =>
          simp [close_directory_externals, svn_categorize_props, hne, hfind, hcv, hov]
        | some ov =>
          have hvv : (ov == nv) = false := by
            by_cases h : ov = nv
            · exact absurd ⟨nv, hcv, by rw [hov, h]⟩ heq
            · simp [h]
          simp [close_directory_externals, svn_categorize_props, hne, hfind,
            hcv, hov, hvv]
    · rintro (⟨h1, h2⟩ | ⟨v, h1, h2⟩)
      · simp [close_directory_externals, svn_categorize_props, hne, hfind, h1, h2]
      · simp [close_directory_externals, svn_categorize_props, hne, hfind, h1, h2]
  · intro v
    exact hashGet_hashSet_self t.externals_old dbPath v
  · intro v
    exact hashGet_hashSet_self t.externals_new dbPath v

/-- Witness for C9 at concrete inputs: a change of the externals property
from `"old"` to `"new"` on directory `["d"]` records both values in the
collector. -/
theorem c9_close_directory_externals_witness :
    close_directory_externals (some ⟨[], []⟩) (some "old") ["d"]
        [⟨PName.externals, some "new"⟩]
      = some ⟨[(["d"], "old")], [(["d"], "new")]⟩ := by
  have h := ((c9_close_directory_externals ⟨[], []⟩ (some "old") ["d"]
      [⟨PName.externals, some "new"⟩] ⟨PName.externals, some "new"⟩).1
    (by rfl)).1
    (by rintro ⟨h1, _⟩; cases h1)
    (by
      rintro ⟨v, hv1, hv2⟩
      simp only [Option.some.injEq] at hv1 hv2
      subst hv1
      exact absurd hv2 (by decide))
  rw [h]
  rfl

/-! ## C6 — `add_directory`: obstruction and copyfrom checks -/

/-- The administrative directory name (`SVN_WC_ADM_DIR_NAME`). -/
def admDirName : String := ".svn"

/-- Environment of an `add_directory` call: the on-disk kind at the new
directory's path (`svn_io_check_path`), the parent directory's entries
table, and whether `prep_directory` succeeds. -/
structure AddDirEnv where
  onDiskKind : NodeKind
  parentEntries : List (String × WcEntry)
  prepOk : Bool
deriving Repr, DecidableEq

/-- Outcome of an `add_directory` call: `aborted` models the `abort()` on
mixed copyfrom arguments, `failed e` an error return, `added` success. -/
inductive AddDirOutcome where
  | aborted
  | failed (e : ErrCode)
  | added
deriving Repr, DecidableEq

/-- `svn_wc__entry_modify` writing `kind=dir, deleted=false` for `name` into
the parent's entries (creating the entry when absent). -/
def entryModifyKindDeleted (entries : List (String × WcEntry)) (name : String) :
    List (String × WcEntry) :=
  match lookupEntry entries name with
  | some e =>
    entries.map (fun p =>
      if p.1 = name then (name, { e with kind := NodeKind.nodeDir, deleted := false })
      else p)
  | none =>
    entries ++ [(name, { WcEntry.blank with kind := NodeKind.nodeDir, deleted := false })]

/-- Tail of `add_directory` after all checks passed: write the initial entry
into the parent, then `prep_directory`. -/
def add_directory_finish (env : AddDirEnv) (name : String) :
    AddDirOutcome × List (String × WcEntry) :=
  let entries1 := entryModifyKindDeleted env.parentEntries name
  if env.prepOk then (AddDirOutcome.added, entries1)
  else (AddDirOutcome.failed (ErrCode.genericErr 0), entries1)

/-- The `add_directory` callback (`update_editor.c`): its checks in source
order — mixed copyfrom arguments abort; a physical object at the target
path, or a basename equal to the administrative directory name, fail with
OBSTRUCTED_UPDATE; supplied copyfrom arguments fail with
UNSUPPORTED_FEATURE; a parent entry of the same name scheduled for addition
fails with OBSTRUCTED_UPDATE; otherwise the initial entry is written and the
directory prepared.  Returns the outcome and the parent's entries table
after the call. -/
def add_directory (path : List String) (copyfrom_path : Option (List String))
    (copyfrom_revision : Option Nat) (env : AddDirEnv) :
    AddDirOutcome × List (String × WcEntry) :=
  let name := lastComponent path
  if (copyfrom_path.isSome ∧ copyfrom_revision = none)
      ∨ (copyfrom_path = none ∧ copyfrom_revision.isSome) then
    (AddDirOutcome.aborted, env.parentEntries)
  else if env.onDiskKind ≠ NodeKind.nodeNone then
    (AddDirOutcome.failed ErrCode.obstructedUpdate, env.parentEntries)
  else if name = admDirName then
    (AddDirOutcome.failed ErrCode.obstructedUpdate, env.parentEntries)
  else if copyfrom_path.isSome ∨ copyfrom_revision.isSome then
    (AddDirOutcome.failed ErrCode.unsupportedFeature, env.parentEntries)
  else
    match lookupEntry env.parentEntries name with
    | some dir_entry =>
      if dir_entry.schedule = Schedule.scheduleAdd then
        (AddDirOutcome.failed ErrCode.obstructedUpdate, env.parentEntries)
      else add_directory_finish env name
    | none => add_directory_finish env name

/-- A parent entries table whose entry `"D"` is scheduled for addition. -/
def c6Entries : List (String × WcEntry) :=
  [("D", { WcEntry.blank with schedule := Schedule.scheduleAdd })]

/-- C6 counterexample: the claim says an entry scheduled-for-add makes
`add_directory` fail with OBSTRUCTED_UPDATE, but the copyfrom check runs
first in the source: with copyfrom arguments supplied *and* the parent entry
`"D"` scheduled for addition, the call fails with UNSUPPORTED_FEATURE, not
OBSTRUCTED_UPDATE. -/
theorem c6_counterexample :
    (add_directory ["D"] (some ["cf"]) (some 5)
        ⟨NodeKind.nodeNone, c6Entries, true⟩).1
      = AddDirOutcome.failed ErrCode.unsupportedFeature
    ∧ (lookupEntry c6Entries "D").map WcEntry.schedule = some Schedule.scheduleAdd
    ∧ AddDirOutcome.failed ErrCode.unsupportedFeature
        ≠ AddDirOutcome.failed ErrCode.obstructedUpdate := by
  refine ⟨rfl, rfl, ?_⟩
  decide

/-- C6 (amended): `add_directory` runs its checks in source order.  With
copyfrom arguments well-formed (both present or both absent): a physical
object at the target path fails with OBSTRUCTED_UPDATE; otherwise a basename
equal to the administrative directory name fails with OBSTRUCTED_UPDATE;
otherwise supplied copyfrom arguments fail with UNSUPPORTED_FEATURE;
otherwise a parent entry of the same basename already scheduled-for-add
fails with OBSTRUCTED_UPDATE.  In each of these failure cases no entry is
written: the parent's entries table is returned unchanged. -/
theorem c6_add_directory (path : List String) (cfp : Option (List String))
    (cfr : Option Nat) (env : AddDirEnv)
    (hmix : ¬((cfp.isSome ∧ cfr = none) ∨ (cfp = none ∧ cfr.isSome))) :
    (env.onDiskKind ≠ NodeKind.nodeNone →
      add_directory path cfp cfr env
        = (AddDirOutcome.failed ErrCode.obstructedUpdate, env.parentEntries))
    ∧ (env.onDiskKind = NodeKind.nodeNone → lastComponent path = admDirName →
        add_directory path cfp cfr env
          = (AddDirOutcome.failed ErrCode.obstructedUpdate, env.parentEntries))
    ∧ (env.onDiskKind = NodeKind.nodeNone → lastComponent path ≠ admDirName →
        (cfp.isSome ∨ cfr.isSome) →
        add_directory path cfp cfr env
          = (AddDirOutcome.failed ErrCode.unsupportedFeature, env.parentEntries))
    ∧ (env.onDiskKind = NodeKind.nodeNone → lastComponent path ≠ admDirName →
        cfp = none → cfr = none →
        ∀ de, lookupEntry env.parentEntries (lastComponent path) = some de →
          de.schedule = Schedule.scheduleAdd →
          add_directory path cfp cfr env
            = (AddDirOutcome.failed ErrCode.obstructedUpdate, env.parentEntries)) := by
  refine ⟨?_, ?_, ?_, ?_⟩
  · intro hk
    simp [add_directory, hmix, hk]
  · intro hk hn
    simp [add_directory, hmix, hk, hn]
  · intro hk hn hcf
    simp [add_directory, hmix, hk, hn, hcf]
  · intro hk hn h1 h2 de hde hsched
    subst h1; subst h2
    simp [add_directory, hmix, hk, hn, hde, hsched]

/-- Witness for C6 (amended) at concrete inputs: an unversioned directory
`"D"` on disk makes `add_directory` fail with OBSTRUCTED_UPDATE without
touching the entries table, and a scheduled-for-add entry (with no copyfrom)
does the same. -/
theorem c6_add_directory_witness :
    add_directory ["D"] none none ⟨NodeKind.nodeDir, c6Entries, true⟩
      = (AddDirOutcome.failed ErrCode.obstructedUpdate, c6Entries)
    ∧ add_directory ["D"] none none ⟨NodeKind.nodeNone, c6Entries, true⟩
      = (AddDirOutcome.failed ErrCode.obstructedUpdate, c6Entries) :=
  ⟨(c6_add_directory ["D"] none none ⟨NodeKind.nodeDir, c6Entries, true⟩
      (by rintro (⟨h, _⟩ | ⟨_, h⟩) <;> cases h)).1 (by decide),
   (c6_add_directory ["D"] none none ⟨NodeKind.nodeNone, c6Entries, true⟩
      (by rintro (⟨h, _⟩ | ⟨_, h⟩) <;> cases h)).2.2.2 rfl (by decide) rfl rfl
      { WcEntry.blank with schedule := Schedule.scheduleAdd } (by rfl) rfl⟩

/-! ## C5 / C7 — entry deletion, the leftmod error chain, and directory
completion -/

/-- Edit-baton fields involved in entry deletion. -/
structure EbDelete where
  target : Option String
  target_revision : Nat
  switch_url : Option (List String)
  target_deleted : Bool
deriving Repr, DecidableEq

/-- Environment of a `do_entry_deletion` call: the on-disk kind of the full
path, the local-modification probes, and the error chains produced by
`svn_wc_remove_from_revision_control` (switch case) and `svn_wc__run_log`
(`none` = success; the head of a chain is the outermost error). -/
structure DeleteEnv where
  onDiskKind : NodeKind
  textModified : Bool
  propsModified : Bool
  removeResult : Option (List ErrCode)
  runLogResult : Option (List ErrCode)
deriving Repr, DecidableEq

/-- Log commands emitted by entry deletion: `delete-entry`, and the phantom
`modify-entry` writing the deleted-target tombstone. -/
inductive LogCmd where
  | deleteEntry (name : String)
  | modifyEntryPhantom (name : List String) (kind : NodeKind) (revision : Nat)
      (deleted : Bool)
deriving Repr, DecidableEq

/-- `leftmod_error_chain` (`update_editor.c`): search an error chain for
LEFT_LOCAL_MOD; when found, remove the log file and wrap the remaining chain
in OBSTRUCTED_UPDATE, otherwise return the chain unchanged.  The boolean
records whether the log file was removed. -/
def leftmod_error_chain (err : Option (List ErrCode)) :
    Option (List ErrCode) × Bool :=
  match err with
  | none => (none, false)
  | some chain =>
    match chain.dropWhile (fun c => c != ErrCode.leftLocalMod) with
    | [] => (some chain, false)
    | c :: cs => (some (ErrCode.obstructedUpdate :: c :: cs), true)

/-- `do_entry_deletion` (`update_editor.c`): checks local modifications,
emits the `delete-entry` log command (plus the phantom `deleted` entry when
the deleted path is the edit's target, setting `target_deleted`), removes a
switched subdirectory from revision control before replay, and replays the
log through `leftmod_error_chain`.  Returns the error (if any), the edit
baton after the call, the log commands written to the log file, and whether
`leftmod_error_chain` removed the log file. -/
def do_entry_deletion (eb : EbDelete) (env : DeleteEnv)
    (path : List String) :
    Option (List ErrCode) × EbDelete × List LogCmd × Bool :=
  let base_name := lastComponent path
  let kind := env.onDiskKind
  if kind = NodeKind.nodeFile ∧ (env.textModified = true ∨ env.propsModified = true) then
    (some [ErrCode.obstructedUpdate], eb, [], false)
  else
    let targetHit : Bool :=
      match eb.target with
      | some t => path = [t]
      | none => false
    let log2 : List LogCmd :=
      if targetHit then
        [LogCmd.deleteEntry base_name,
         LogCmd.modifyEntryPhantom path
           (if kind = NodeKind.nodeFile then NodeKind.nodeFile else NodeKind.nodeDir)
           eb.target_revision true]
      else [LogCmd.deleteEntry base_name]
    let eb1 := if targetHit then { eb with target_deleted := true } else eb
    if eb.switch_url.isSome ∧ kind = NodeKind.nodeDir then
      match leftmod_error_chain env.removeResult with
      | (some e, removed) => (some e, eb1, log2, removed)
      | (none, _) =>
        match leftmod_error_chain env.runLogResult with
        | (some e, removed) => (some e, eb1, log2, removed)
        | (none, _) => (none, eb1, log2, false)
    else
      match leftmod_error_chain env.runLogResult with
      | (some e, removed) => (some e, eb1, log2, removed)
      | (none, _) => (none, eb1, log2, false)

/-- Dropping the prefix before LEFT_LOCAL_MOD: when the code is present the
remaining chain starts with it, when absent the whole chain is dropped. -/
theorem dropWhile_leftmod (chain : List ErrCode) :
    (ErrCode.leftLocalMod ∈ chain →
      ∃ cs, chain.dropWhile (fun c => c != ErrCode.leftLocalMod)
        = ErrCode.leftLocalMod :: cs)
    ∧ (ErrCode.leftLocalMod ∉ chain →
      chain.dropWhile (fun c => c != ErrCode.leftLocalMod) = []) := by
  induction chain with
  | nil => exact ⟨fun h => absurd h (List.not_mem_nil _), fun _ => rfl⟩
  | cons c cs ih =>
    constructor
    · intro hmem
      by_cases hc : c = ErrCode.leftLocalMod
      · subst hc
        exact ⟨cs, by simp [List.dropWhile]⟩
      · have hmem' : ErrCode.leftLocalMod ∈ cs := by
          rcases List.mem_cons.mp hmem with h | h
          · exact absurd h.symm hc
          · exact h
        obtain ⟨cs', hcs'⟩ := ih.1 hmem'
        refine ⟨cs', ?_⟩
        rw [List.dropWhile_cons]
        simp only [bne_iff_ne, ne_eq, hc, not_false_eq_true, if_true]
        exact hcs'
    · intro hmem
      have hc : c ≠ ErrCode.leftLocalMod := fun h => hmem (by simp [h])
      have hcs : ErrCode.leftLocalMod ∉ cs := fun h => hmem (by simp [h])
      rw [List.dropWhile_cons]
      simp only [bne_iff_ne, ne_eq, hc, not_false_eq_true, if_true]
      exact ih.2 hcs

/-- C7: deleting an on-disk file that has locally modified text or
properties fails with OBSTRUCTED_UPDATE before any log command is emitted;
and whenever a replay error chain contains LEFT_LOCAL_MOD, the
partially-written log file is removed and the error is re-raised wrapped in
OBSTRUCTED_UPDATE (the wrapped chain starting at the LEFT_LOCAL_MOD link),
while chains without LEFT_LOCAL_MOD propagate unchanged and leave the log
file in place; in particular this is how `do_entry_deletion` surfaces log
replay failures. -/
theorem c7_delete_local_mods (eb : EbDelete) (env : DeleteEnv)
    (path : List String) (chain : List ErrCode) :
    (env.onDiskKind = NodeKind.nodeFile →
      (env.textModified = true ∨ env.propsModified = true) →
      do_entry_deletion eb env path = (some [ErrCode.obstructedUpdate], eb, [], false))
    ∧ (ErrCode.leftLocalMod ∈ chain →
        leftmod_error_chain (some chain)
          = (some (ErrCode.obstructedUpdate ::
              chain.dropWhile (fun c => c != ErrCode.leftLocalMod)), true))
    ∧ (ErrCode.leftLocalMod ∉ chain →
        leftmod_error_chain (some chain) = (some chain, false))
    ∧ leftmod_error_chain none = (none, false)
    ∧ (¬(env.onDiskKind = NodeKind.nodeFile
          ∧ (env.textModified = true ∨ env.propsModified = true)) →
       ¬(eb.switch_url.isSome ∧ env.onDiskKind = NodeKind.nodeDir) →
       env.runLogResult = some chain → ErrCode.leftLocalMod ∈ chain →
        ((do_entry_deletion eb env path).1
          = some (ErrCode.obstructedUpdate ::
              chain.dropWhile (fun c => c != ErrCode.leftLocalMod))
        ∧ (do_entry_deletion eb env path).2.2.2 = true)) := by
  refine ⟨?_, ?_, ?_, rfl, ?_⟩
  · intro hk hmod
    simp [do_entry_deletion, hk, hmod]
  · intro hmem
    obtain ⟨cs, hcs⟩ := (dropWhile_leftmod chain).1 hmem
    simp [leftmod_error_chain, hcs]
  · intro hmem
    have h := (dropWhile_leftmod chain).2 hmem
    simp [leftmod_error_chain, h]
  · intro hnomod hnoswitch hrun hmem
    obtain ⟨cs, hcs⟩ := (dropWhile_leftmod chain).1 hmem
    have hlm : leftmod_error_chain (some chain)
        = (some (ErrCode.obstructedUpdate ::
            chain.dropWhile (fun c => c != ErrCode.leftLocalMod)), true) := by
      simp [leftmod_error_chain, hcs]
    rw [hcs] at hlm
    simp only [do_entry_deletion, hnomod, if_false, hnoswitch, hrun, hlm, hcs]
    constructor <;> trivial

/-- Witness for C7 at concrete inputs: deleting a locally modified file
fails with OBSTRUCTED_UPDATE emitting nothing, and a replay chain
`[genericErr 3, leftLocalMod]` is wrapped with the log file removed. -/
theorem c7_delete_local_mods_witness :
    do_entry_deletion ⟨none, 7, none, false⟩
        ⟨NodeKind.nodeFile, true, false, none, none⟩ ["f"]
      = (some [ErrCode.obstructedUpdate], ⟨none, 7, none, false⟩, [], false)
    ∧ leftmod_error_chain (some [ErrCode.genericErr 3, ErrCode.leftLocalMod])
      = (some [ErrCode.obstructedUpdate, ErrCode.leftLocalMod], true) := by
  have h := c7_delete_local_mods ⟨none, 7, none, false⟩
      ⟨NodeKind.nodeFile, true, false, none, none⟩ ["f"]
      [ErrCode.genericErr 3, ErrCode.leftLocalMod]
  exact ⟨h.1 rfl (Or.inl rfl), (h.2.1 (by decide)).trans (by decide)⟩

/-- The key under which a directory's own entry is stored
(`SVN_WC_ENTRY_THIS_DIR`). -/
def thisDirKey : String := "svn:this_dir"

/-- Replace the binding of `name` in an entries table. -/
def entrySet : List (String × WcEntry) → String → WcEntry → List (String × WcEntry)
  | [], _, _ => []
  | p :: ps, name, e =>
    if p.1 = name then (name, e) :: entrySet ps name e
    else p :: entrySet ps name e

/-- `svn_wc__entry_remove`. -/
def entryRemove (entries : List (String × WcEntry)) (name : String) :
    List (String × WcEntry) :=
  entries.filter (fun p => p.1 != name)

/-- `complete_directory` (`update_editor.c`): clear the `incomplete` flag on
the THIS_DIR entry (ENTRY_NOT_FOUND when missing); at the root of an edit
with a target, clean up only that target — removing its tombstone unless
`target_deleted` is set, or removing a missing non-scheduled-for-add
subdirectory (with an `update_delete` notification); otherwise scan the
whole table removing tombstones and missing non-added subdirectories.
Returns the rewritten entries table and the notified child paths. -/
def complete_directory (eb_target : Option String) (eb_target_deleted : Bool)
    (admMissing : List String → Bool) (path : List String) (is_root_dir : Bool)
    (entries : List (String × WcEntry)) :
    Except ErrCode (List (String × WcEntry) × List (List String)) :=
  match lookupEntry entries thisDirKey with
  | none => Except.error ErrCode.entryNotFound
  | some e0 =>
    let entries1 := entrySet entries thisDirKey { e0 with incomplete := false }
    if is_root_dir ∧ eb_target.isSome then
      match eb_target with
      | none => Except.ok (entries1, [])
      | some name =>
        match lookupEntry entries1 name with
        | none => Except.ok (entries1, [])
        | some ce =>
          if ce.deleted = true then
            if eb_target_deleted = false then Except.ok (entryRemove entries1 name, [])
            else Except.ok (entries1, [])
          else if ce.kind = NodeKind.nodeDir then
            if admMissing (path ++ [name]) = true
                ∧ ce.schedule ≠ Schedule.scheduleAdd then
              Except.ok (entryRemove entries1 name, [path ++ [name]])
            else Except.ok (entries1, [])
          else Except.ok (entries1, [])
    else
      let keep := fun (p : String × WcEntry) =>
        ¬(p.2.deleted = true
          ∨ (p.2.kind = NodeKind.nodeDir ∧ admMissing (path ++ [p.1]) = true
              ∧ p.2.schedule ≠ Schedule.scheduleAdd))
      let notified := entries1.filter (fun p =>
        p.2.deleted = false ∧ p.2.kind = NodeKind.nodeDir
          ∧ admMissing (path ++ [p.1]) = true ∧ p.2.schedule ≠ Schedule.scheduleAdd)
      Except.ok (entries1.filter (fun p => keep p), notified.map (fun p => path ++ [p.1]))

/-- Replacing one key's binding leaves lookups of other keys unchanged. -/
theorem lookupEntry_entrySet_ne (entries : List (String × WcEntry))
    (name k : String) (e : WcEntry) (h : k ≠ name) :
    lookupEntry (entrySet entries name e) k = lookupEntry entries k := by
  induction entries with
  | nil => rfl
  | cons p ps ih =>
    by_cases hp : p.1 = name
    · have hnk : ¬(name = k) := fun hc => h hc.symm
      have hpk : ¬(p.1 = k) := by rw [hp]; exact hnk
      simp [entrySet, lookupEntry, hp, hnk, hpk, ih]
    · by_cases hpk : p.1 = k
      · simp [entrySet, lookupEntry, hp, hpk, h]
      · simp [entrySet, lookupEntry, hp, hpk, ih]

/-- C5: when `delete_entry` runs on the edit's target (an on-disk file or
directory), it sets `target_deleted` on the edit baton and emits, after the
`delete-entry` command, a phantom `modify-entry` log command writing a
`deleted` entry for the target that carries the new target revision and the
on-disk kind; and `complete_directory` at the root then leaves that
tombstone entry in place instead of removing it. -/
theorem c5_target_delete (eb : EbDelete) (env : DeleteEnv) (t : String)
    (admMissing : List String → Bool) (path : List String)
    (entries : List (String × WcEntry)) (e0 e : WcEntry) :
    (eb.target = some t →
      (env.onDiskKind = NodeKind.nodeFile ∨ env.onDiskKind = NodeKind.nodeDir) →
      ¬(env.onDiskKind = NodeKind.nodeFile
        ∧ (env.textModified = true ∨ env.propsModified = true)) →
      env.removeResult = none → env.runLogResult = none →
      do_entry_deletion eb env [t]
        = (none, { eb with target_deleted := true },
           [LogCmd.deleteEntry t,
            LogCmd.modifyEntryPhantom [t] env.onDiskKind eb.target_revision true],
           false))
    ∧ (t ≠ thisDirKey →
        lookupEntry entries thisDirKey = some e0 →
        lookupEntry entries t = some e → e.deleted = true →
        complete_directory (some t) true admMissing path true entries
          = Except.ok (entrySet entries thisDirKey { e0 with incomplete := false }, [])
        ∧ lookupEntry (entrySet entries thisDirKey { e0 with incomplete := false }) t
          = some e) := by
  constructor
  · intro htgt hkind hnomod hrm hrl
    have hbase : lastComponent [t] = t := rfl
    have hkindeq : (if env.onDiskKind = NodeKind.nodeFile then NodeKind.nodeFile
        else NodeKind.nodeDir) = env.onDiskKind := by
      rcases hkind with h | h <;> simp [h]
    cases hswitch : eb.switch_url.isSome <;>
      simp [do_entry_deletion, hnomod, htgt, hbase, hkindeq, hrm, hrl,
        leftmod_error_chain, hswitch]
  · intro hne h0 ht hdel
    have hlk : lookupEntry (entrySet entries thisDirKey { e0 with incomplete := false }) t
        = some e := by
      rw [lookupEntry_entrySet_ne entries thisDirKey t _ hne]
      exact ht
    refine ⟨?_, hlk⟩
    simp [complete_directory, h0, hlk, hdel]

/-- The THIS_DIR entry of the C5 witness scenario: an incomplete root. -/
def c5ThisDirEntry : WcEntry :=
  { WcEntry.blank with kind := NodeKind.nodeDir, incomplete := true }

/-- The tombstone entry of the C5 witness scenario. -/
def c5GoneEntry : WcEntry :=
  { WcEntry.blank with kind := NodeKind.nodeFile, deleted := true, revision := 10 }

/-- Witness for C5 at concrete inputs: deleting target `"gone"` (an on-disk
file, unmodified) at target revision 10 emits the phantom tombstone and sets
`target_deleted`; completing the root afterwards keeps the tombstone. -/
theorem c5_target_delete_witness :
    do_entry_deletion ⟨some "gone", 10, none, false⟩
        ⟨NodeKind.nodeFile, false, false, none, none⟩ ["gone"]
      = (none, ⟨some "gone", 10, none, true⟩,
         [LogCmd.deleteEntry "gone",
          LogCmd.modifyEntryPhantom ["gone"] NodeKind.nodeFile 10 true], false)
    ∧ complete_directory (some "gone") true (fun _ => false) ["proj"] true
        [(thisDirKey, c5ThisDirEntry), ("gone", c5GoneEntry)]
      = Except.ok
          ([(thisDirKey, { c5ThisDirEntry with incomplete := false }),
            ("gone", c5GoneEntry)], []) := by
  have h := c5_target_delete ⟨some "gone", 10, none, false⟩
      ⟨NodeKind.nodeFile, false, false, none, none⟩ "gone" (fun _ => false) ["proj"]
      [(thisDirKey, c5ThisDirEntry), ("gone", c5GoneEntry)]
      c5ThisDirEntry c5GoneEntry
  refine ⟨h.1 rfl (Or.inl rfl) (by rintro ⟨_, hmod⟩; rcases hmod with hm | hm <;> cases hm)
      rfl rfl, ?_⟩
  have h2 := (h.2 (by decide) (by rfl) (by rfl) rfl).1
  rw [h2]
  rfl

/-! ## C8 — anchor/target resolution -/

/-- The working-copy world visible to the resolver: the entry stored at each
path (`svn_wc_entry`) and whether probing a directory's admin area fails
(`svn_wc_adm_probe_open`). -/
structure WcWorld where
  entryOf : List String → Option WcEntry
  probeFails : List String → Bool

/-- `svn_path_url_add_component` on component-list URLs. -/
def urlAddComponent (u : List String) (c : String) : List String := u ++ [c]

/-- The parent entry seen by the resolver: absent when probing the parent's
admin area fails or no entry exists there (`check_wc_root`, parent lookup). -/
def parentEntryOf (w : WcWorld) (path : List String) : Option WcEntry :=
  if w.probeFails path.dropLast then none else w.entryOf path.dropLast

/-- `check_wc_root` (`update_editor.c`): decide whether `path` is a
working-copy root, also reporting the entry's kind.  No entry at `path`
fails with ENTRY_NOT_FOUND; a parent entry without a URL fails with
ENTRY_MISSING_URL. -/
def check_wc_root (w : WcWorld) (path : List String) :
    Except ErrCode (Bool × NodeKind) :=
  match w.entryOf path with
  | none => Except.error ErrCode.entryNotFound
  | some entry =>
    if path = [] then Except.ok (true, entry.kind)
    else
      match parentEntryOf w path with
      | none => Except.ok (true, entry.kind)
      | some pe =>
        match pe.url with
        | none => Except.error ErrCode.entryMissingUrl
        | some purl =>
          match entry.url with
          | some u =>
            if urlAddComponent purl (lastComponent path) ≠ u then
              Except.ok (true, entry.kind)
            else
              Except.ok (false, entry.kind)
          | none => Except.ok (false, entry.kind)

/-- `svn_wc_get_actual_target` (`update_editor.c`): root the editor at the
path itself when it is a working-copy root directory, else at its dirname
with the basename as target. -/
def svn_wc_get_actual_target (w : WcWorld) (path : List String) :
    Except ErrCode (List String × Option String) :=
  if w.probeFails path then Except.error (ErrCode.genericErr 0)
  else
    match check_wc_root w path with
    | Except.error e => Except.error e
    | Except.ok (is_wc_root, kind) =>
      if ¬is_wc_root = true ∨ kind = NodeKind.nodeFile then
        Except.ok (path.dropLast, some (lastComponent path))
      else
        Except.ok (path, none)

/-- Stated from the spec's words (§4.10), for comparison with
`check_wc_root`: a path is a working-copy root exactly when the empty path
was given, or no parent entry exists, or the path's recorded URL differs
from the parent's URL joined with the path's basename. -/
def isWcRootSpec (w : WcWorld) (path : List String) (entry : WcEntry) : Bool :=
  path.isEmpty || (parentEntryOf w path).isNone ||
    (match entry.url, (parentEntryOf w path).bind WcEntry.url with
     | some u, some purl => urlAddComponent purl (lastComponent path) != u
     | _, _ => false)

/-- C8: for every versioned path (of kind file or directory), the resolver
classifies it a working-copy root exactly per the spec's definition
(`check_wc_root` refines `isWcRootSpec`); a parent entry that exists but has
no URL makes the resolution fail with ENTRY_MISSING_URL; and
`svn_wc_get_actual_target` yields anchor = path, target = null for a root
directory, and anchor = dirname, target = basename otherwise. -/
theorem c8_actual_target (w : WcWorld) (path : List String) (entry : WcEntry)
    (h1 : w.entryOf path = some entry)
    (_hk : entry.kind = NodeKind.nodeFile ∨ entry.kind = NodeKind.nodeDir)
    (hp : w.probeFails path = false) :
    (∀ pe, path ≠ [] → parentEntryOf w path = some pe → pe.url = none →
      check_wc_root w path = Except.error ErrCode.entryMissingUrl
      ∧ svn_wc_get_actual_target w path = Except.error ErrCode.entryMissingUrl)
    ∧ (¬(∃ pe, path ≠ [] ∧ parentEntryOf w path = some pe ∧ pe.url = none) →
        check_wc_root w path = Except.ok (isWcRootSpec w path entry, entry.kind)
        ∧ (isWcRootSpec w path entry = true → entry.kind = NodeKind.nodeDir →
            svn_wc_get_actual_target w path = Except.ok (path, none))
        ∧ (isWcRootSpec w path entry = false ∨ entry.kind = NodeKind.nodeFile →
            svn_wc_get_actual_target w path
              = Except.ok (path.dropLast, some (lastComponent path)))) := by
  constructor
  · intro pe hne hpe hurl
    have hcheck : check_wc_root w path = Except.error ErrCode.entryMissingUrl := by
      simp [check_wc_root, h1, hne, hpe, hurl]
    exact ⟨hcheck, by simp [svn_wc_get_actual_target, hp, hcheck]⟩
  · intro hnomiss
    have hcheck : check_wc_root w path
        = Except.ok (isWcRootSpec w path entry, entry.kind) := by
      by_cases hpath : path = []
      · subst hpath
        simp [check_wc_root, h1, isWcRootSpec]
      · cases hpe : parentEntryOf w path with
        | none => simp [check_wc_root, h1, hpath, hpe, isWcRootSpec]
        | some pe =>
          cases hurl : pe.url with
          | none => exact absurd ⟨pe, hpath, hpe, hurl⟩ hnomiss
          | some purl =>
            cases heu : entry.url with
            | none => simp [check_wc_root, h1, hpath, hpe, hurl, heu, isWcRootSpec]
            | some u =>
              by_cases hdiff : urlAddComponent purl (lastComponent path) = u
              · simp [check_wc_root, h1, hpath, hpe, hurl, heu, hdiff, isWcRootSpec]
              · simp [check_wc_root, h1, hpath, hpe, hurl, heu, hdiff, isWcRootSpec]
    refine ⟨hcheck, ?_, ?_⟩
    · intro hroot hdir
      have hnf : ¬(entry.kind = NodeKind.nodeFile) := by
        rw [hdir]; intro hc; cases hc
      simp [svn_wc_get_actual_target, hp, hcheck, hroot, hnf]
    · intro hcase
      rcases hcase with hroot | hfile
      · simp [svn_wc_get_actual_target, hp, hcheck, hroot]
      · simp [svn_wc_get_actual_target, hp, hcheck, hfile]

/-- The root entry of the C8 witness world: a directory at URL `u`. -/
def c8RootEntry : WcEntry :=
  { WcEntry.blank with kind := NodeKind.nodeDir, url := some ["u"] }

/-- The `foo` entry of the C8 witness world: a directory at URL `u/foo`. -/
def c8FooEntry : WcEntry :=
  { WcEntry.blank with kind := NodeKind.nodeDir, url := some ["u", "foo"] }

/-- The `foo/bar` entry of the C8 witness world: a directory at URL
`u/foo/bar`. -/
def c8BarEntry : WcEntry :=
  { WcEntry.blank with kind := NodeKind.nodeDir, url := some ["u", "foo", "bar"] }

/-- The working copy of scenario S6: root `""` at URL `u`, child `foo` at
`u/foo`, grandchild `foo/bar` at `u/foo/bar`, all directories. -/
def c8World : WcWorld :=
  { entryOf := fun p =>
      if p = [] then some c8RootEntry
      else if p = ["foo"] then some c8FooEntry
      else if p = ["foo", "bar"] then some c8BarEntry
      else none,
    probeFails := fun _ => false }

/-- Witness for C8 at concrete inputs: in `c8World`, `foo/bar` is not a
working-copy root (its URL telescopes from `foo`), so the resolver anchors
at `foo` with target `bar`; the empty path is a root directory, so it
resolves to itself with no target. -/
theorem c8_actual_target_witness :
    svn_wc_get_actual_target c8World ["foo", "bar"]
      = Except.ok (["foo"], some "bar")
    ∧ svn_wc_get_actual_target c8World [] = Except.ok ([], none) := by
  constructor
  · exact ((c8_actual_target c8World ["foo", "bar"] c8BarEntry
        (by decide) (Or.inr (by decide)) rfl).2
      (by
        rintro ⟨pe, _, hpe, hurl⟩
        have hpe' : parentEntryOf c8World ["foo", "bar"] = some c8FooEntry := by
          decide
        rw [hpe'] at hpe
        injection hpe with hpee
        rw [← hpee] at hurl
        exact absurd hurl (by decide))).2.2 (Or.inl (by decide))
  · exact ((c8_actual_target c8World [] c8RootEntry
        (by decide) (Or.inr (by decide)) rfl).2
      (by rintro ⟨pe, hne, _, _⟩; exact hne rfl)).2.1 (by decide) (by decide)

/-! ## C1 — BumpInfo reference counting and `complete_directory` -/

/-- `struct bump_dir_info` (`update_editor.c`): parent pointer (as the index
of the parent directory's record in entry order) and reference count (a C
`int`). -/
structure BumpDirInfo where
  parent : Option Nat
  refCount : Int
deriving Repr, DecidableEq

/-- The editor-side state of the bump mechanism: one `bump_dir_info` per
directory entered, indexed in entry order, plus the directories for which
`complete_directory` has run, in call order. -/
structure BumpState where
  dirs : List BumpDirInfo
  completed : List Nat
deriving Repr, DecidableEq

/-- Read a directory's bump record. -/
def getBdi (s : BumpState) (d : Nat) : BumpDirInfo :=
  s.dirs.getD d ⟨none, 0⟩

/-- Overwrite a directory's reference count. -/
def setRc (s : BumpState) (d : Nat) (rc : Int) : BumpState :=
  { s with dirs := s.dirs.set d { getBdi s d with refCount := rc } }

/-- `maybe_bump_dir_info` (`update_editor.c`): walk up the parent chain
decrementing each reference count; stop at the first count still positive; a
count reaching zero runs `complete_directory` (recorded by appending the
directory to `completed`) and the loop continues at the parent.  `fuel`
bounds the walk; any fuel exceeding the start index suffices because parents
precede their children in entry order. -/
def maybe_bump_dir_info : Nat → Option Nat → BumpState → BumpState
  | _, none, s => s
  | 0, some _, s => s
  | fuel + 1, some d, s =>
    let rc := (getBdi s d).refCount - 1
    let s1 := setRc s d rc
    if rc > 0 then s1
    else
      maybe_bump_dir_info fuel (getBdi s d).parent
        { s1 with completed := s1.completed ++ [d] }

/-- Driver events of an edit as they affect the bump mechanism: entering a
directory (`make_dir_baton` via open_root / add_directory / open_directory,
carrying the parent directory's index, `none` for the root), entering a file
(`make_file_baton` via add_file / open_file, carrying the directory's
index), closing a directory, and closing a file (carrying the file's index
and its directory's index). -/
inductive EditorEv where
  | enterDir (parent : Option Nat)
  | enterFile (dir : Nat)
  | closeDir (d : Nat)
  | closeFile (f : Nat) (dir : Nat)
deriving Repr, DecidableEq

/-- One editor callback's effect on the bump state: `make_dir_baton`
allocates a record with reference count 1 and gives the parent's record one
more referer; `make_file_baton` gives the directory's record one more
referer; `close_directory` and `close_file` run `maybe_bump_dir_info` on the
directory's record. -/
def bumpStep (s : BumpState) : EditorEv → BumpState
  | EditorEv.enterDir p =>
    let s1 :=
      match p with
      | some pd => setRc s pd ((getBdi s pd).refCount + 1)
      | none => s
    { s1 with dirs := s1.dirs ++ [⟨p, 1⟩] }
  | EditorEv.enterFile d => setRc s d ((getBdi s d).refCount + 1)
  | EditorEv.closeDir d => maybe_bump_dir_info s.dirs.length (some d) s
  | EditorEv.closeFile _ d => maybe_bump_dir_info s.dirs.length (some d) s

/-- Protocol bookkeeping of a well-formed edit: the parent and closed status
of each directory entered, and the directory and closed status of each file
entered. -/
structure DrvState where
  dirParent : List (Option Nat)
  dirClosed : List Bool
  fileDir : List Nat
  fileClosed : List Bool
deriving Repr, DecidableEq

/-- The editor protocol, one event at a time: a directory or file may only
be entered inside an open directory (the root only once, first), and each
close names something entered and not yet closed.  File closes may come
after their directory's close (postfix text deltas). -/
def drvStep (ds : DrvState) : EditorEv → Option DrvState
  | EditorEv.enterDir none =>
    if ds.dirParent.isEmpty then
      some { ds with dirParent := [none], dirClosed := [false] }
    else none
  | EditorEv.enterDir (some p) =>
    if p < ds.dirParent.length ∧ ds.dirClosed.getD p true = false then
      some { ds with dirParent := ds.dirParent ++ [some p],
                     dirClosed := ds.dirClosed ++ [false] }
    else none
  | EditorEv.enterFile d =>
    if d < ds.dirParent.length ∧ ds.dirClosed.getD d true = false then
      some { ds with fileDir := ds.fileDir ++ [d],
                     fileClosed := ds.fileClosed ++ [false] }
    else none
  | EditorEv.closeDir d =>
    if d < ds.dirParent.length ∧ ds.dirClosed.getD d true = false then
      some { ds with dirClosed := ds.dirClosed.set d true }
    else none
  | EditorEv.closeFile f d =>
    if f < ds.fileDir.length ∧ ds.fileDir.getD f 0 = d
        ∧ ds.fileClosed.getD f true = false then
      some { ds with fileClosed := ds.fileClosed.set f true }
    else none

/-- The empty protocol state. -/
def drvInit : DrvState := ⟨[], [], [], []⟩

/-- The empty bump state. -/
def bumpInit : BumpState := ⟨[], []⟩

/-- Run the protocol over a trace. -/
def drvRunFrom (ds : DrvState) : List EditorEv → Option DrvState
  | [] => some ds
  | ev :: evs =>
    match drvStep ds ev with
    | none => none
    | some ds1 => drvRunFrom ds1 evs

/-- Run the bump mechanism over a trace. -/
def bumpRunFrom (s : BumpState) : List EditorEv → BumpState
  | [] => s
  | ev :: evs => bumpRunFrom (bumpStep s ev) evs

/-- Number of directories already entered whose parent is `d` and whose
completion has not yet run. -/
def openChildCount (ds : DrvState) (completed : List Nat) (d : Nat) : Nat :=
  ((List.range ds.dirParent.length).filter
    (fun c => decide (ds.dirParent.getD c none = some d)
      && decide (c ∉ completed))).length

/-- Number of files entered in `d` and not yet closed. -/
def openFileCount (ds : DrvState) (d : Nat) : Nat :=
  ((List.range ds.fileDir.length).filter
    (fun f => decide (ds.fileDir.getD f 0 = d)
      && decide (ds.fileClosed.getD f true = false))).length

/-- The value the reference-count invariant pins `ref_count` to: one for the
directory itself until its close, one per entered child directory whose
completion has not run, one per open file in it — that is, the count starts
at 1, goes up once per child directory and once per file entered, and comes
down at the directory's close, at each file's close, and at each child's
completion. -/
def rcFormula (ds : DrvState) (completed : List Nat) (d : Nat) : Nat :=
  (if ds.dirClosed.getD d true = false then 1 else 0)
  + openChildCount ds completed d + openFileCount ds d

/-- All directories and files of the edit are closed. -/
def allClosed (ds : DrvState) : Bool :=
  ds.dirClosed.all (fun b => b) && ds.fileClosed.all (fun b => b)

/-- The invariant tying the bump state to the protocol state. -/
structure BumpInv (ds : DrvState) (s : BumpState) : Prop where
  len_dirs : s.dirs.length = ds.dirParent.length
  len_closed : ds.dirClosed.length = ds.dirParent.length
  len_files : ds.fileClosed.length = ds.fileDir.length
  parent_eq : ∀ d, d < s.dirs.length → (getBdi s d).parent = ds.dirParent.getD d none
  parent_lt : ∀ d, d < ds.dirParent.length → ∀ p, ds.dirParent.getD d none = some p → p < d
  file_dir_lt : ∀ f, f < ds.fileDir.length → ds.fileDir.getD f 0 < ds.dirParent.length
  rc_eq : ∀ d, d < s.dirs.length →
    (getBdi s d).refCount = (rcFormula ds s.completed d : Int)
  completed_iff : ∀ d, d < s.dirs.length →
    (d ∈ s.completed ↔ rcFormula ds s.completed d = 0)
  completed_nodup : s.completed.Nodup
  completed_lt : ∀ d ∈ s.completed, d < s.dirs.length

/-- `getD` after `set` at the written index. -/
theorem getD_set_self {α : Type} (l : List α) (i : Nat) (x dflt : α)
    (h : i < l.length) : (l.set i x).getD i dflt = x := by
  induction l generalizing i with
  | nil => cases h
  | cons a as ih =>
    cases i with
    | zero => rfl
    | succ j => exact ih j (Nat.lt_of_succ_lt_succ h)

/-- `getD` after `set` at another index. -/
theorem getD_set_ne {α : Type} (l : List α) (i j : Nat) (x dflt : α)
    (h : j ≠ i) : (l.set i x).getD j dflt = l.getD j dflt := by
  induction l generalizing i j with
  | nil => rfl
  | cons a as ih =>
    cases i with
    | zero =>
      cases j with
      | zero => exact absurd rfl h
      | succ j' => rfl
    | succ i' =>
      cases j with
      | zero => rfl
      | succ j' => exact ih i' j' (fun hc => h (by rw [hc]))

/-- Reading the bump record of another index after `setRc`. -/
theorem getBdi_setRc_ne (s : BumpState) (d i : Nat) (rc : Int) (h : i ≠ d) :
    getBdi (setRc s d rc) i = getBdi s i := by
  unfold getBdi setRc
  exact getD_set_ne s.dirs d i _ _ h

/-- Reading the written bump record after `setRc`. -/
theorem getBdi_setRc_self (s : BumpState) (d : Nat) (rc : Int)
    (h : d < s.dirs.length) :
    getBdi (setRc s d rc) d = { getBdi s d with refCount := rc } := by
  unfold getBdi setRc
  exact getD_set_self s.dirs d _ _ h

/-- `setRc` preserves the number of records. -/
theorem setRc_length (s : BumpState) (d : Nat) (rc : Int) :
    (setRc s d rc).dirs.length = s.dirs.length := by
  simp [setRc]

/-- `setRc` does not touch the completion log. -/
theorem setRc_completed (s : BumpState) (d : Nat) (rc : Int) :
    (setRc s d rc).completed = s.completed := rfl

/-- Counting over `range n` of predicates that agree everywhere. -/
theorem rangeCount_congr (n : Nat) (p q : Nat → Bool)
    (h : ∀ i, i < n → p i = q i) :
    ((List.range n).filter p).length = ((List.range n).filter q).length := by
  have : (List.range n).filter p = (List.range n).filter q :=
    List.filter_congr (fun x hx => by rw [h x (List.mem_range.mp hx)])
  rw [this]

/-- Counting over `range n` of predicates that differ exactly at one point
where the first holds and the second does not. -/
theorem rangeCount_point (n f : Nat) (p q : Nat → Bool) (hf : f < n)
    (hsame : ∀ i, i ≠ f → p i = q i) (hp : p f = true) (hq : q f = false) :
    ((List.range n).filter p).length = ((List.range n).filter q).length + 1 := by
  induction n with
  | zero => cases hf
  | succ m ih =>
    rw [List.range_succ, List.filter_append, List.filter_append,
      List.length_append, List.length_append]
    by_cases hfm : f = m
    · subst hfm
      have heq : ((List.range f).filter p).length = ((List.range f).filter q).length :=
        rangeCount_congr f p q (fun i hi => hsame i (Nat.ne_of_lt hi))
      simp [heq, hp, hq, Nat.add_comm]
    · have hf' : f < m := Nat.lt_of_lt_of_le (Nat.lt_of_le_of_ne (Nat.le_of_lt_succ hf) hfm) (Nat.le_refl m)
      have hlast : p m = q m := hsame m (fun hc => hfm hc.symm)
      rw [ih hf']
      cases hqm : q m <;> simp [List.filter_singleton, hlast, hqm]

/-- Counting over `range (n+1)`: split off the last point. -/
theorem rangeCount_succ (n : Nat) (q : Nat → Bool) :
    ((List.range (n + 1)).filter q).length
      = ((List.range n).filter q).length + (if q n = true then 1 else 0) := by
  rw [List.range_succ, List.filter_append, List.length_append]
  cases hq : q n <;> simp [List.filter_singleton, hq]

/-- Completing directory `d` removes exactly one incomplete child — `d`
itself — from its parent's count and changes no other count. -/
theorem openChildCount_complete (ds : DrvState) (completed : List Nat) (d i : Nat)
    (hd : d < ds.dirParent.length) (hdc : d ∉ completed) :
    openChildCount ds completed i
      = openChildCount ds (completed ++ [d]) i
        + (if ds.dirParent.getD d none = some i then 1 else 0) := by
  have hsame : ∀ c, c ≠ d →
      (decide (ds.dirParent.getD c none = some i) && decide (c ∉ completed))
        = (decide (ds.dirParent.getD c none = some i)
            && decide (c ∉ completed ++ [d])) := by
    intro c hc
    have hmem : (c ∉ completed ++ [d]) ↔ (c ∉ completed) :=
      not_congr (by simp [List.mem_append, hc])
    rw [decide_eq_decide.mpr hmem]
  by_cases hp : ds.dirParent.getD d none = some i
  · rw [if_pos hp]
    have hdin : d ∈ completed ++ [d] :=
      List.mem_append.mpr (Or.inr (List.mem_singleton.mpr rfl))
    exact rangeCount_point ds.dirParent.length d _ _ hd hsame
      (by rw [decide_eq_true hp, decide_eq_true hdc]; rfl)
      (by rw [decide_eq_false (not_not_intro hdin), Bool.and_false])
  · rw [if_neg hp, Nat.add_zero]
    apply rangeCount_congr
    intro c _
    by_cases hc : c = d
    · subst hc
      rw [decide_eq_false hp, Bool.false_and, Bool.false_and]
    · exact hsame c hc

/-- Closing file `f` removes exactly one open file from its directory's
count and changes no other count. -/
theorem openFileCount_closeFile (ds : DrvState) (f i : Nat)
    (hf : f < ds.fileDir.length) (hlen : ds.fileClosed.length = ds.fileDir.length)
    (hopen : ds.fileClosed.getD f true = false) :
    openFileCount ds i
      = openFileCount { ds with fileClosed := ds.fileClosed.set f true } i
        + (if ds.fileDir.getD f 0 = i then 1 else 0) := by
  have hsame : ∀ fl, fl ≠ f →
      (decide (ds.fileDir.getD fl 0 = i)
        && decide (ds.fileClosed.getD fl true = false))
        = (decide (ds.fileDir.getD fl 0 = i)
            && decide ((ds.fileClosed.set f true).getD fl true = false)) := by
    intro fl hfl
    rw [getD_set_ne ds.fileClosed f fl true true hfl]
  have hset : (ds.fileClosed.set f true).getD f true = true :=
    getD_set_self ds.fileClosed f true true (by omega)
  by_cases hp : ds.fileDir.getD f 0 = i
  · rw [if_pos hp]
    have hnf : ¬((ds.fileClosed.set f true).getD f true = false) := by
      rw [hset]
      exact fun hc => by cases hc
    exact rangeCount_point ds.fileDir.length f _ _ hf hsame
      (by rw [decide_eq_true hp, decide_eq_true hopen]; rfl)
      (by rw [decide_eq_false hnf, Bool.and_false])
  · rw [if_neg hp, Nat.add_zero]
    apply rangeCount_congr
    intro fl _
    by_cases hfl : fl = f
    · subst hfl
      rw [decide_eq_false hp, Bool.false_and, Bool.false_and]
    · exact hsame fl hfl

/-- One unfolding step of the parent-chain walk. -/
theorem maybe_bump_succ (fuel d : Nat) (s : BumpState) :
    maybe_bump_dir_info (fuel + 1) (some d) s
      = if (getBdi s d).refCount - 1 > 0 then
          setRc s d ((getBdi s d).refCount - 1)
        else
          maybe_bump_dir_info fuel (getBdi s d).parent
            ⟨(setRc s d ((getBdi s d).refCount - 1)).dirs,
             (setRc s d ((getBdi s d).refCount - 1)).completed ++ [d]⟩ := rfl

/-- The walk stops at a missing parent pointer. -/
theorem maybe_bump_none (fuel : Nat) (s : BumpState) :
    maybe_bump_dir_info fuel none s = s := by
  cases fuel <;> rfl

/-- The parent-chain walk of `maybe_bump_dir_info` preserves the invariant:
starting from a state correct everywhere except for one pending decrement at
`d`, the walk decrements `d`, completes it exactly when its count reaches
zero, propagates the decrement to the parent, and restores the full
invariant.  The completion log only grows. -/
theorem maybe_bump_preserves (ds : DrvState) :
    ∀ fuel d s,
      d < fuel →
      s.dirs.length = ds.dirParent.length →
      ds.dirClosed.length = ds.dirParent.length →
      ds.fileClosed.length = ds.fileDir.length →
      (∀ i, i < s.dirs.length → (getBdi s i).parent = ds.dirParent.getD i none) →
      (∀ i, i < ds.dirParent.length → ∀ p, ds.dirParent.getD i none = some p → p < i) →
      (∀ f, f < ds.fileDir.length → ds.fileDir.getD f 0 < ds.dirParent.length) →
      (∀ i, i < s.dirs.length → i ≠ d →
        (getBdi s i).refCount = (rcFormula ds s.completed i : Int)) →
      (∀ i, i < s.dirs.length → i ≠ d →
        (i ∈ s.completed ↔ rcFormula ds s.completed i = 0)) →
      s.completed.Nodup →
      (∀ i ∈ s.completed, i < s.dirs.length) →
      d < s.dirs.length →
      d ∉ s.completed →
      (getBdi s d).refCount = (rcFormula ds s.completed d : Int) + 1 →
      BumpInv ds (maybe_bump_dir_info fuel (some d) s)
      ∧ s.completed <+: (maybe_bump_dir_info fuel (some d) s).completed := by
  intro fuel
  induction fuel with
  | zero => intro d s hfuel; cases hfuel
  | succ fl ih =>
    intro d s hfuel hlen hlenc hlenf hpeq hplt hflt hrc hciff hnodup hclt hdlt hdnc hrcd
    have hrcval : (getBdi s d).refCount - 1 = (rcFormula ds s.completed d : Int) := by
      rw [hrcd]; ring
    have hcond : ((getBdi s d).refCount - 1 > 0)
        ↔ ((rcFormula ds s.completed d : Int) > 0) := by rw [hrcval]
    rw [maybe_bump_succ]
    by_cases hpos : (rcFormula ds s.completed d : Int) > 0
    · rw [if_pos (hcond.mpr hpos)]
      have hform0 : rcFormula ds s.completed d ≠ 0 := by
        intro hc; rw [hc] at hpos; exact absurd hpos (by norm_num)
      refine ⟨⟨?_, hlenc, hlenf, ?_, hplt, hflt, ?_, ?_, hnodup, ?_⟩, ?_⟩
      · rw [setRc_length, hlen]
      · intro i hi
        rw [setRc_length] at hi
        by_cases hid : i = d
        · subst hid
          rw [getBdi_setRc_self s i _ hi]
          exact hpeq i hi
        · rw [getBdi_setRc_ne s d i _ hid]
          exact hpeq i hi
      · intro i hi
        rw [setRc_length] at hi
        rw [setRc_completed]
        by_cases hid : i = d
        · subst hid
          rw [getBdi_setRc_self s i _ hi]
          exact hrcval
        · rw [getBdi_setRc_ne s d i _ hid]
          exact hrc i hi hid
      · intro i hi
        rw [setRc_length] at hi
        rw [setRc_completed]
        by_cases hid : i = d
        · subst hid
          exact ⟨fun hmem => absurd hmem hdnc, fun hz => absurd hz hform0⟩
        · exact hciff i hi hid
      · intro i hi
        rw [setRc_completed] at hi
        rw [setRc_length]
        exact hclt i hi
      · rw [setRc_completed]
    · rw [if_neg (fun hc => hpos (hcond.mp hc))]
      have hform0 : rcFormula ds s.completed d = 0 := by
        by_contra hne
        exact hpos (by exact_mod_cast Nat.pos_of_ne_zero hne)
      set s2 : BumpState :=
        ⟨(setRc s d ((getBdi s d).refCount - 1)).dirs,
         (setRc s d ((getBdi s d).refCount - 1)).completed ++ [d]⟩ with hs2
      have hs2dirs : s2.dirs.length = s.dirs.length := by
        rw [hs2]
        simp [setRc]
      have hs2completed : s2.completed = s.completed ++ [d] := by
        rw [hs2]
        simp [setRc]
      have hget2 : ∀ i, i ≠ d → getBdi s2 i = getBdi s i := fun i hid =>
        getBdi_setRc_ne s d i _ hid
      have hget2d : getBdi s2 d
          = { getBdi s d with refCount := (getBdi s d).refCount - 1 } :=
        getBdi_setRc_self s d _ hdlt
      have hchild : ∀ i, openChildCount ds s.completed i
          = openChildCount ds (s.completed ++ [d]) i
            + (if ds.dirParent.getD d none = some i then 1 else 0) :=
        fun i => openChildCount_complete ds s.completed d i (by omega) hdnc
      have hnoself : ¬(ds.dirParent.getD d none = some d) := by
        intro hc
        exact absurd (hplt d (by omega) d hc) (Nat.lt_irrefl d)
      have hchd := hchild d
      rw [if_neg hnoself, Nat.add_zero] at hchd
      have hformd2 : rcFormula ds s2.completed d = 0 := by
        rw [hs2completed]
        unfold rcFormula at hform0 ⊢
        omega
      have hnodup2 : s2.completed.Nodup := by
        rw [hs2completed]
        exact List.nodup_append.mpr ⟨hnodup, List.nodup_singleton d,
          by simp [List.disjoint_singleton, hdnc]⟩
      have hclt2 : ∀ i ∈ s2.completed, i < s2.dirs.length := by
        intro i hi
        rw [hs2completed] at hi
        rw [hs2dirs]
        rcases List.mem_append.mp hi with h | h
        · exact hclt i h
        · rw [List.mem_singleton.mp h]
          exact hdlt
      have hpeq2 : ∀ i, i < s2.dirs.length →
          (getBdi s2 i).parent = ds.dirParent.getD i none := by
        intro i hi
        rw [hs2dirs] at hi
        by_cases hid : i = d
        · subst hid
          rw [hget2d]
          exact hpeq i hi
        · rw [hget2 i hid]
          exact hpeq i hi
      rw [hpeq d hdlt]
      cases hpar : ds.dirParent.getD d none with
      | none =>
        -- no parent: the walk stops after completing d
        rw [maybe_bump_none]
        have hforms : ∀ i, i ≠ d →
            rcFormula ds s2.completed i = rcFormula ds s.completed i := by
          intro i hid
          have h2 := hchild i
          have hz : (if ds.dirParent.getD d none = some i then 1 else 0) = 0 := by
            rw [hpar]
            simp
          rw [hz, Nat.add_zero] at h2
          rw [hs2completed]
          unfold rcFormula
          omega
        refine ⟨⟨by rw [hs2dirs, hlen], hlenc, hlenf, hpeq2, hplt, hflt,
          ?_, ?_, hnodup2, hclt2⟩, ?_⟩
        · intro i hi
          rw [hs2dirs] at hi
          by_cases hid : i = d
          · subst hid
            rw [hget2d, hformd2]
            simp [hrcval, hform0]
          · rw [hget2 i hid, hforms i hid]
            exact hrc i hi hid
        · intro i hi
          rw [hs2dirs] at hi
          by_cases hid : i = d
          · subst hid
            rw [hformd2, hs2completed]
            simp
          · rw [hforms i hid, hs2completed]
            have hmem : (i ∈ s.completed ++ [d]) ↔ i ∈ s.completed := by
              simp [List.mem_append, hid]
            rw [hmem]
            exact hciff i hi hid
        · rw [hs2completed]
          exact List.prefix_append s.completed [d]
      | some p =>
        -- propagate the decrement to the parent
        have hplt' : p < d := hplt d (by omega) p hpar
        have hpd : p ≠ d := Nat.ne_of_lt hplt'
        have hpltlen : p < s.dirs.length := Nat.lt_trans hplt' hdlt
        have hchp := hchild p
        rw [if_pos hpar] at hchp
        have hformp : rcFormula ds s.completed p = rcFormula ds s2.completed p + 1 := by
          rw [hs2completed]
          unfold rcFormula
          omega
        have hpnc : p ∉ s.completed := by
          intro hc
          have := (hciff p hpltlen hpd).mp hc
          unfold rcFormula at this
          omega
        have hpnc2 : p ∉ s2.completed := by
          rw [hs2completed]
          intro hc
          rcases List.mem_append.mp hc with h | h
          · exact hpnc h
          · exact hpd (List.mem_singleton.mp h)
        have hforms : ∀ i, i ≠ d → i ≠ p →
            rcFormula ds s2.completed i = rcFormula ds s.completed i := by
          intro i hid hip
          have h2 := hchild i
          have hz : (if ds.dirParent.getD d none = some i then 1 else 0) = 0 := by
            have hpi : ¬(p = i) := fun hc => hip hc.symm
            rw [hpar]
            simp [hpi]
          rw [hz, Nat.add_zero] at h2
          rw [hs2completed]
          unfold rcFormula
          omega
        have hrc2 : ∀ i, i < s2.dirs.length → i ≠ p →
            (getBdi s2 i).refCount = (rcFormula ds s2.completed i : Int) := by
          intro i hi hip
          rw [hs2dirs] at hi
          by_cases hid : i = d
          · subst hid
            rw [hget2d, hformd2]
            simp [hrcval, hform0]
          · rw [hget2 i hid, hforms i hid hip]
            exact hrc i hi hid
        have hciff2 : ∀ i, i < s2.dirs.length → i ≠ p →
            (i ∈ s2.completed ↔ rcFormula ds s2.completed i = 0) := by
          intro i hi hip
          rw [hs2dirs] at hi
          by_cases hid : i = d
          · subst hid
            rw [hformd2, hs2completed]
            simp
          · rw [hforms i hid hip, hs2completed]
            have hmem : (i ∈ s.completed ++ [d]) ↔ i ∈ s.completed := by
              simp [List.mem_append, hid]
            rw [hmem]
            exact hciff i hi hid
        have hrcp2 : (getBdi s2 p).refCount = (rcFormula ds s2.completed p : Int) + 1 := by
          rw [hget2 p hpd, hrc p hpltlen hpd, hformp]
          push_cast
          ring
        have hih := ih p s2 (by omega) (by rw [hs2dirs, hlen]) hlenc hlenf hpeq2 hplt
          hflt hrc2 hciff2 hnodup2 hclt2 (by rw [hs2dirs]; exact hpltlen) hpnc2 hrcp2
        refine ⟨hih.1, ?_⟩
        have hpre : s.completed <+: s2.completed := by
          rw [hs2completed]
          exact List.prefix_append s.completed [d]
        exact hpre.trans hih.2

/-- Counting over a range of points that all fail the predicate. -/
theorem rangeCount_zero (n : Nat) (q : Nat → Bool) (h : ∀ i, i < n → q i = false) :
    ((List.range n).filter q).length = 0 := by
  rw [rangeCount_congr n q (fun _ => false) h]
  simp

/-- Entering a file in directory `d` adds one open file to `d`'s count and
changes no other count. -/
theorem openFileCount_enterFile (ds : DrvState) (d i : Nat)
    (hlenf : ds.fileClosed.length = ds.fileDir.length) :
    openFileCount { ds with fileDir := ds.fileDir ++ [d],
                            fileClosed := ds.fileClosed ++ [false] } i
      = openFileCount ds i + (if d = i then 1 else 0) := by
  unfold openFileCount
  have hml : (ds.fileDir ++ [d]).length = ds.fileDir.length + 1 := by simp
  show ((List.range (ds.fileDir ++ [d]).length).filter _).length = _
  rw [hml, rangeCount_succ]
  have hcongr : ∀ fl, fl < ds.fileDir.length →
      ((fun f => decide ((ds.fileDir ++ [d]).getD f 0 = i)
        && decide ((ds.fileClosed ++ [false]).getD f true = false)) fl)
      = ((fun f => decide (ds.fileDir.getD f 0 = i)
        && decide (ds.fileClosed.getD f true = false)) fl) := by
    intro fl hfl
    show (decide ((ds.fileDir ++ [d]).getD fl 0 = i) && _) = _
    rw [List.getD_append ds.fileDir [d] 0 fl hfl,
      List.getD_append ds.fileClosed [false] true fl (by omega)]
  rw [rangeCount_congr ds.fileDir.length _ _ hcongr]
  have hlast1 : (ds.fileDir ++ [d]).getD ds.fileDir.length 0 = d := by
    rw [List.getD_append_right ds.fileDir [d] 0 ds.fileDir.length (Nat.le_refl _)]
    simp
  have hlast2 : (ds.fileClosed ++ [false]).getD ds.fileDir.length true = false := by
    rw [List.getD_append_right ds.fileClosed [false] true ds.fileDir.length (by omega)]
    simp [hlenf]
  show _ + (if (decide ((ds.fileDir ++ [d]).getD ds.fileDir.length 0 = i)
      && decide ((ds.fileClosed ++ [false]).getD ds.fileDir.length true = false))
        = true then 1 else 0) = _
  rw [hlast1, hlast2]
  by_cases hdi : d = i
  · rw [if_pos hdi]
    simp [hdi]
  · rw [if_neg hdi]
    simp [hdi]

/-- Entering a directory under parent `p` adds one incomplete child to `p`'s
count and changes no other count. -/
theorem openChildCount_enterDir (ds : DrvState) (p : Option Nat)
    (completed : List Nat) (i : Nat)
    (hcom : ∀ c ∈ completed, c < ds.dirParent.length) :
    openChildCount { ds with dirParent := ds.dirParent ++ [p],
                             dirClosed := ds.dirClosed ++ [false] } completed i
      = openChildCount ds completed i + (if p = some i then 1 else 0) := by
  unfold openChildCount
  have hml : (ds.dirParent ++ [p]).length = ds.dirParent.length + 1 := by simp
  show ((List.range (ds.dirParent ++ [p]).length).filter _).length = _
  rw [hml, rangeCount_succ]
  have hcongr : ∀ c, c < ds.dirParent.length →
      ((fun c => decide ((ds.dirParent ++ [p]).getD c none = some i)
        && decide (c ∉ completed)) c)
      = ((fun c => decide (ds.dirParent.getD c none = some i)
        && decide (c ∉ completed)) c) := by
    intro c hc
    show (decide ((ds.dirParent ++ [p]).getD c none = some i) && _) = _
    rw [List.getD_append ds.dirParent [p] none c hc]
  rw [rangeCount_congr ds.dirParent.length _ _ hcongr]
  have hlast1 : (ds.dirParent ++ [p]).getD ds.dirParent.length none = p := by
    rw [List.getD_append_right ds.dirParent [p] none ds.dirParent.length (Nat.le_refl _)]
    simp
  have hnc : ds.dirParent.length ∉ completed := by
    intro hc
    exact absurd (hcom _ hc) (Nat.lt_irrefl _)
  show _ + (if (decide ((ds.dirParent ++ [p]).getD ds.dirParent.length none = some i)
      && decide (ds.dirParent.length ∉ completed)) = true then 1 else 0) = _
  rw [hlast1, decide_eq_true hnc, Bool.and_true]
  by_cases hpi : p = some i
  · rw [if_pos hpi]
    simp [hpi]
  · rw [if_neg hpi]
    simp [hpi]

/-- Closing a directory preserves the invariant: the driver marks `d`
closed, and the editor's `maybe_bump_dir_info` performs the matching
decrement (completing and propagating as needed). -/
theorem bump_closeDir (ds : DrvState) (s : BumpState) (d : Nat)
    (hinv : BumpInv ds s) (hd : d < ds.dirParent.length)
    (hopen : ds.dirClosed.getD d true = false) :
    BumpInv { ds with dirClosed := ds.dirClosed.set d true }
      (maybe_bump_dir_info s.dirs.length (some d) s)
    ∧ s.completed <+: (maybe_bump_dir_info s.dirs.length (some d) s).completed := by
  obtain ⟨hlen, hlenc, hlenf, hpeq, hplt, hflt, hrc, hciff, hnodup, hclt⟩ := hinv
  set ds' : DrvState := { ds with dirClosed := ds.dirClosed.set d true } with hds'
  have hoc : ∀ completed i, openChildCount ds' completed i
      = openChildCount ds completed i := fun _ _ => rfl
  have hof : ∀ i, openFileCount ds' i = openFileCount ds i := fun _ => rfl
  have hbit : ∀ i, i ≠ d → ds'.dirClosed.getD i true = ds.dirClosed.getD i true := by
    intro i hi
    show (ds.dirClosed.set d true).getD i true = _
    exact getD_set_ne ds.dirClosed d i true true hi
  have hbitd : ds'.dirClosed.getD d true = true := by
    show (ds.dirClosed.set d true).getD d true = true
    exact getD_set_self ds.dirClosed d true true (by omega)
  have hform_ne : ∀ i, i ≠ d →
      rcFormula ds' s.completed i = rcFormula ds s.completed i := by
    intro i hi
    unfold rcFormula
    rw [hbit i hi, hoc, hof]
  have hform_d : rcFormula ds s.completed d = rcFormula ds' s.completed d + 1 := by
    unfold rcFormula
    rw [hbitd, hopen, hoc, hof]
    simp
    omega
  have hdnc : d ∉ s.completed := by
    intro hc
    have := (hciff d (by omega)).mp hc
    omega
  have happ := maybe_bump_preserves ds' s.dirs.length d s (by omega)
    hlen (by show (ds.dirClosed.set d true).length = ds.dirParent.length; simp [hlenc])
    hlenf hpeq hplt hflt
    (fun i hi hid => by rw [hform_ne i hid]; exact hrc i hi)
    (fun i hi hid => by rw [hform_ne i hid]; exact hciff i hi)
    hnodup hclt (by omega) hdnc
    (by rw [hrc d (by omega), hform_d]; push_cast; ring)
  exact happ

/-- Closing a file preserves the invariant: the driver marks file `f`
closed, and the editor decrements the file's directory via
`maybe_bump_dir_info`. -/
theorem bump_closeFile (ds : DrvState) (s : BumpState) (f d : Nat)
    (hinv : BumpInv ds s) (hf : f < ds.fileDir.length)
    (hfd : ds.fileDir.getD f 0 = d)
    (hfopen : ds.fileClosed.getD f true = false) :
    BumpInv { ds with fileClosed := ds.fileClosed.set f true }
      (maybe_bump_dir_info s.dirs.length (some d) s)
    ∧ s.completed <+: (maybe_bump_dir_info s.dirs.length (some d) s).completed := by
  obtain ⟨hlen, hlenc, hlenf, hpeq, hplt, hflt, hrc, hciff, hnodup, hclt⟩ := hinv
  have hd : d < ds.dirParent.length := hfd ▸ hflt f hf
  set ds' : DrvState := { ds with fileClosed := ds.fileClosed.set f true } with hds'
  have hoc : ∀ completed i, openChildCount ds' completed i
      = openChildCount ds completed i := fun _ _ => rfl
  have hbit : ∀ i, ds'.dirClosed.getD i true = ds.dirClosed.getD i true :=
    fun _ => rfl
  have hofc := fun i => openFileCount_closeFile ds f i hf hlenf hfopen
  have hform_ne : ∀ i, i ≠ d →
      rcFormula ds' s.completed i = rcFormula ds s.completed i := by
    intro i hi
    have h := hofc i
    rw [← hds'] at h
    rw [hfd, if_neg (fun hc : d = i => hi hc.symm), Nat.add_zero] at h
    unfold rcFormula
    rw [hbit i, hoc, ← h]
  have hform_d : rcFormula ds s.completed d = rcFormula ds' s.completed d + 1 := by
    have h := hofc d
    rw [← hds'] at h
    rw [hfd, if_pos rfl] at h
    unfold rcFormula
    rw [hbit d, hoc]
    omega
  have hdnc : d ∉ s.completed := by
    intro hc
    have := (hciff d (by omega)).mp hc
    omega
  have happ := maybe_bump_preserves ds' s.dirs.length d s (by omega)
    hlen hlenc (by show (ds.fileClosed.set f true).length = ds.fileDir.length; simp [hlenf])
    hpeq hplt hflt
    (fun i hi hid => by rw [hform_ne i hid]; exact hrc i hi)
    (fun i hi hid => by rw [hform_ne i hid]; exact hciff i hi)
    hnodup hclt (by omega) hdnc
    (by rw [hrc d (by omega), hform_d]; push_cast; ring)
  exact happ

/-- Entering a file in open directory `d` preserves the invariant: the
driver records the new open file, the editor gives `d`'s bump record one
more referer. -/
theorem bump_enterFile (ds : DrvState) (s : BumpState) (d : Nat)
    (hinv : BumpInv ds s) (hd : d < ds.dirParent.length)
    (hopen : ds.dirClosed.getD d true = false) :
    BumpInv { ds with fileDir := ds.fileDir ++ [d],
                      fileClosed := ds.fileClosed ++ [false] }
      (setRc s d ((getBdi s d).refCount + 1))
    ∧ s.completed <+: (setRc s d ((getBdi s d).refCount + 1)).completed := by
  obtain ⟨hlen, hlenc, hlenf, hpeq, hplt, hflt, hrc, hciff, hnodup, hclt⟩ := hinv
  set ds' : DrvState := { ds with fileDir := ds.fileDir ++ [d],
                                  fileClosed := ds.fileClosed ++ [false] } with hds'
  have hoc : ∀ completed i, openChildCount ds' completed i
      = openChildCount ds completed i := fun _ _ => rfl
  have hbit : ∀ i, ds'.dirClosed.getD i true = ds.dirClosed.getD i true :=
    fun _ => rfl
  have hof := fun i => openFileCount_enterFile ds d i hlenf
  have hform : ∀ i, rcFormula ds' s.completed i
      = rcFormula ds s.completed i + (if d = i then 1 else 0) := by
    intro i
    unfold rcFormula
    rw [hbit i, hoc, hof i]
    omega
  have hform_d : rcFormula ds' s.completed d = rcFormula ds s.completed d + 1 := by
    rw [hform d, if_pos rfl]
  have hform_ne : ∀ i, i ≠ d →
      rcFormula ds' s.completed i = rcFormula ds s.completed i := by
    intro i hi
    rw [hform i, if_neg (fun hc : d = i => hi hc.symm), Nat.add_zero]
  have hdnc : d ∉ s.completed := by
    intro hc
    have := (hciff d (by omega)).mp hc
    unfold rcFormula at this
    rw [hopen] at this
    simp at this
  refine ⟨⟨?_, ?_, ?_, ?_, hplt, ?_, ?_, ?_, hnodup, ?_⟩, ?_⟩
  · rw [setRc_length, hlen]
  · exact hlenc
  · show (ds.fileClosed ++ [false]).length = (ds.fileDir ++ [d]).length
    simp [hlenf]
  · intro i hi
    rw [setRc_length] at hi
    by_cases hid : i = d
    · subst hid
      rw [getBdi_setRc_self s i _ hi]
      exact hpeq i hi
    · rw [getBdi_setRc_ne s d i _ hid]
      exact hpeq i hi
  · intro fl hfl
    show (ds.fileDir ++ [d]).getD fl 0 < ds.dirParent.length
    have hfl' : fl < (ds.fileDir ++ [d]).length := hfl
    rw [List.length_append, List.length_singleton] at hfl'
    by_cases hend : fl < ds.fileDir.length
    · rw [List.getD_append ds.fileDir [d] 0 fl hend]
      exact hflt fl hend
    · have : fl = ds.fileDir.length := by omega
      subst this
      rw [List.getD_append_right ds.fileDir [d] 0 _ (Nat.le_refl _)]
      simpa using hd
  · intro i hi
    rw [setRc_length] at hi
    rw [setRc_completed]
    by_cases hid : i = d
    · subst hid
      rw [getBdi_setRc_self s i _ hi, hform_d, hrc i hi]
      push_cast
      ring
    · rw [getBdi_setRc_ne s d i _ hid, hform_ne i hid]
      exact hrc i hi
  · intro i hi
    rw [setRc_length] at hi
    rw [setRc_completed]
    by_cases hid : i = d
    · subst hid
      rw [hform_d]
      constructor
      · intro hc
        exact absurd hc hdnc
      · intro hc
        omega
    · rw [hform_ne i hid]
      exact hciff i hi
  · intro i hi
    rw [setRc_completed] at hi
    rw [setRc_length]
    exact hclt i hi
  · rw [setRc_completed]

/-- Entering a child directory under open parent `p` preserves the
invariant: the driver records the new open directory, the editor allocates
its bump record with count 1 and gives the parent's record one more
referer. -/
theorem bump_enterDir (ds : DrvState) (s : BumpState) (p : Nat)
    (hinv : BumpInv ds s) (hp : p < ds.dirParent.length)
    (hopen : ds.dirClosed.getD p true = false) :
    BumpInv { ds with dirParent := ds.dirParent ++ [some p],
                      dirClosed := ds.dirClosed ++ [false] }
      (bumpStep s (EditorEv.enterDir (some p)))
    ∧ s.completed <+: (bumpStep s (EditorEv.enterDir (some p))).completed := by
  obtain ⟨hlen, hlenc, hlenf, hpeq, hplt, hflt, hrc, hciff, hnodup, hclt⟩ := hinv
  set ds' : DrvState := { ds with dirParent := ds.dirParent ++ [some p],
                                  dirClosed := ds.dirClosed ++ [false] } with hds'
  have hstep : bumpStep s (EditorEv.enterDir (some p))
      = ⟨(setRc s p ((getBdi s p).refCount + 1)).dirs ++ [⟨some p, 1⟩],
         s.completed⟩ := rfl
  rw [hstep]
  set s' : BumpState :=
    ⟨(setRc s p ((getBdi s p).refCount + 1)).dirs ++ [⟨some p, 1⟩],
     s.completed⟩ with hs'
  have hslen : s'.dirs.length = s.dirs.length + 1 := by
    rw [hs']
    simp [setRc]
  have hdslen : ds'.dirParent.length = ds.dirParent.length + 1 := by
    rw [hds']
    simp
  have hget' : ∀ i, i < s.dirs.length → i ≠ p → getBdi s' i = getBdi s i := by
    intro i hi hip
    show ((setRc s p ((getBdi s p).refCount + 1)).dirs
        ++ [({ parent := some p, refCount := 1 } : BumpDirInfo)]).getD i
        ({ parent := none, refCount := 0 } : BumpDirInfo) = getBdi s i
    rw [List.getD_append _ _ _ i (by rw [setRc_length]; exact hi)]
    exact getBdi_setRc_ne s p i _ hip
  have hgetp : getBdi s' p
      = { getBdi s p with refCount := (getBdi s p).refCount + 1 } := by
    show ((setRc s p ((getBdi s p).refCount + 1)).dirs
        ++ [({ parent := some p, refCount := 1 } : BumpDirInfo)]).getD p
        ({ parent := none, refCount := 0 } : BumpDirInfo)
        = { getBdi s p with refCount := (getBdi s p).refCount + 1 }
    rw [List.getD_append _ _ _ p (by rw [setRc_length]; omega)]
    exact getBdi_setRc_self s p _ (by omega)
  have hgetn : getBdi s' s.dirs.length = ⟨some p, 1⟩ := by
    show ((setRc s p ((getBdi s p).refCount + 1)).dirs
        ++ [({ parent := some p, refCount := 1 } : BumpDirInfo)]).getD s.dirs.length
        ({ parent := none, refCount := 0 } : BumpDirInfo)
        = { parent := some p, refCount := 1 }
    rw [List.getD_append_right _ _ _ _ (by rw [setRc_length])]
    rw [setRc_length]
    simp
  have hparl : ∀ i, i < ds.dirParent.length →
      ds'.dirParent.getD i none = ds.dirParent.getD i none := by
    intro i hi
    show (ds.dirParent ++ [some p]).getD i none = _
    exact List.getD_append _ _ _ i hi
  have hparn : ds'.dirParent.getD ds.dirParent.length none = some p := by
    show (ds.dirParent ++ [some p]).getD ds.dirParent.length none = some p
    rw [List.getD_append_right _ _ _ _ (Nat.le_refl _)]
    simp
  have hbitl : ∀ i, i < ds.dirParent.length →
      ds'.dirClosed.getD i true = ds.dirClosed.getD i true := by
    intro i hi
    show (ds.dirClosed ++ [false]).getD i true = _
    exact List.getD_append _ _ _ i (by omega)
  have hbitn : ds'.dirClosed.getD ds.dirParent.length true = false := by
    show (ds.dirClosed ++ [false]).getD ds.dirParent.length true = false
    rw [List.getD_append_right _ _ _ _ (by omega)]
    simp [hlenc]
  have hof : ∀ i, openFileCount ds' i = openFileCount ds i := fun _ => rfl
  have hcom : ∀ c ∈ s.completed, c < ds.dirParent.length := by
    intro c hc
    have := hclt c hc
    omega
  have hoc : ∀ i, openChildCount ds' s.completed i
      = openChildCount ds s.completed i + (if some p = some i then 1 else 0) := by
    intro i
    rw [hds']
    exact openChildCount_enterDir ds (some p) s.completed i hcom
  have hocn : openChildCount ds s.completed ds.dirParent.length = 0 := by
    unfold openChildCount
    apply rangeCount_zero
    intro c hc
    show (decide (ds.dirParent.getD c none = some ds.dirParent.length)
      && decide (c ∉ s.completed)) = false
    cases hgc : ds.dirParent.getD c none with
    | none => simp
    | some q =>
      have hq : q < c := hplt c hc q hgc
      have hne : ¬(some q = some ds.dirParent.length) := by
        intro hcc
        injection hcc with hcc
        omega
      rw [decide_eq_false hne, Bool.false_and]
  have hofn : openFileCount ds ds.dirParent.length = 0 := by
    unfold openFileCount
    apply rangeCount_zero
    intro fl hfl
    show (decide (ds.fileDir.getD fl 0 = ds.dirParent.length)
      && decide (ds.fileClosed.getD fl true = false)) = false
    have := hflt fl hfl
    rw [decide_eq_false (by omega), Bool.false_and]
  have hpnc : p ∉ s.completed := by
    intro hc
    have := (hciff p (by omega)).mp hc
    unfold rcFormula at this
    rw [hopen] at this
    simp at this
  have hnnc : s.dirs.length ∉ s.completed := by
    intro hc
    have := hclt _ hc
    omega
  refine ⟨⟨?_, ?_, hlenf, ?_, ?_, ?_, ?_, ?_, hnodup, ?_⟩, ?_⟩
  · rw [hslen, hdslen, hlen]
  · show (ds.dirClosed ++ [false]).length = (ds.dirParent ++ [some p]).length
    simp [hlenc]
  · intro i hi
    rw [hslen] at hi
    by_cases hin : i = s.dirs.length
    · subst hin
      rw [hgetn, hlen]
      exact hparn.symm
    · have hi' : i < s.dirs.length := by omega
      rw [hparl i (by omega)]
      by_cases hip : i = p
      · subst hip
        rw [hgetp]
        exact hpeq i hi'
      · rw [hget' i hi' hip]
        exact hpeq i hi'
  · intro i hi q hq
    rw [hdslen] at hi
    by_cases hin : i = ds.dirParent.length
    · subst hin
      rw [hparn] at hq
      injection hq with hq
      omega
    · rw [hparl i (by omega)] at hq
      exact hplt i (by omega) q hq
  · intro f hf
    show ds.fileDir.getD f 0 < ds'.dirParent.length
    rw [hdslen]
    have := hflt f hf
    omega
  · intro i hi
    rw [hslen] at hi
    show (getBdi s' i).refCount = (rcFormula ds' s'.completed i : Int)
    have hscompleted : s'.completed = s.completed := rfl
    rw [hscompleted]
    by_cases hin : i = s.dirs.length
    · subst hin
      rw [hgetn, hlen]
      show (1 : Int) = (rcFormula ds' s.completed ds.dirParent.length : Int)
      unfold rcFormula
      rw [hbitn, hoc, hocn, hof, hofn]
      have hnps : ¬(some p = some ds.dirParent.length) := by
        intro hc
        injection hc with hc
        omega
      rw [if_neg hnps]
      simp
    · have hi' : i < s.dirs.length := by omega
      unfold rcFormula
      rw [hbitl i (by omega), hoc i, hof i]
      by_cases hip : i = p
      · subst hip
        rw [hgetp]
        show (getBdi s i).refCount + 1 = _
        rw [hrc i hi']
        unfold rcFormula
        rw [if_pos rfl]
        push_cast
        ring
      · rw [hget' i hi' hip]
        rw [if_neg (fun hc : some p = some i => hip (by injection hc with hc; omega))]
        rw [hrc i hi']
        unfold rcFormula
        push_cast
        ring
  · intro i hi
    rw [hslen] at hi
    show i ∈ s'.completed ↔ rcFormula ds' s'.completed i = 0
    have hscompleted : s'.completed = s.completed := rfl
    rw [hscompleted]
    by_cases hin : i = s.dirs.length
    · subst hin
      rw [hlen]
      have hnnc' : ds.dirParent.length ∉ s.completed := by
        intro hc
        have := hclt _ hc
        omega
      unfold rcFormula
      rw [hbitn, hoc, hocn, hof, hofn]
      have hnps : ¬(some p = some ds.dirParent.length) := by
        intro hc
        injection hc with hc
        omega
      rw [if_neg hnps]
      simp [hnnc']
    · have hi' : i < s.dirs.length := by omega
      unfold rcFormula
      rw [hbitl i (by omega), hoc i, hof i]
      by_cases hip : i = p
      · subst hip
        rw [if_pos rfl]
        constructor
        · intro hc
          exact absurd hc hpnc
        · intro hc
          omega
      · rw [if_neg (fun hc : some p = some i => hip (by injection hc with hc; omega))]
        rw [Nat.add_zero]
        exact hciff i hi'
  · intro i hi
    have hscompleted : s'.completed = s.completed := rfl
    rw [hscompleted] at hi
    rw [hslen]
    have := hclt i hi
    omega
  · show s.completed <+: s.completed
    exact List.prefix_refl _

/-- Entering the root directory preserves the invariant: before it the edit
is empty, after it the editor holds a single bump record with count 1. -/
theorem bump_enterDir_root (ds : DrvState) (s : BumpState)
    (hinv : BumpInv ds s) (hempty : ds.dirParent = []) :
    BumpInv { ds with dirParent := [none], dirClosed := [false] }
      (bumpStep s (EditorEv.enterDir none))
    ∧ s.completed <+: (bumpStep s (EditorEv.enterDir none)).completed := by
  obtain ⟨hlen, hlenc, hlenf, hpeq, hplt, hflt, hrc, hciff, hnodup, hclt⟩ := hinv
  have hsd : s.dirs = [] := by
    have h0 : s.dirs.length = 0 := by rw [hlen, hempty]; rfl
    exact List.eq_nil_of_length_eq_zero h0
  have hfdlen : ds.fileDir.length = 0 := by
    by_contra h
    have hx := hflt 0 (by omega)
    rw [hempty] at hx
    simp at hx
  have hfd : ds.fileDir = [] := List.eq_nil_of_length_eq_zero hfdlen
  have hfc : ds.fileClosed = [] :=
    List.eq_nil_of_length_eq_zero (by rw [hlenf, hfdlen])
  have hcomp : s.completed = [] := by
    rw [List.eq_nil_iff_forall_not_mem]
    intro d hd
    have hx := hclt d hd
    rw [hsd] at hx
    simp at hx
  have hstep : bumpStep s (EditorEv.enterDir none)
      = ⟨s.dirs ++ [⟨none, 1⟩], s.completed⟩ := rfl
  rw [hstep, hsd, hcomp, hfd, hfc]
  refine ⟨⟨rfl, rfl, rfl, ?_, ?_, ?_, ?_, ?_, List.nodup_nil, ?_⟩, ?_⟩
  · intro d hd
    simp at hd
    have h0 : d = 0 := by omega
    subst h0
    decide
  · intro d hd q hq
    simp at hd
    have h0 : d = 0 := by omega
    subst h0
    exact Option.noConfusion hq
  · intro f hf
    simp at hf
  · intro d hd
    simp at hd
    have h0 : d = 0 := by omega
    subst h0
    decide
  · intro d hd
    simp at hd
    have h0 : d = 0 := by omega
    subst h0
    decide
  · intro d hd
    simp at hd
  · exact List.nil_prefix

/-- Any single protocol-accepted editor event preserves the invariant, and
the completion log only grows. -/
theorem bump_step_preserves (ds ds' : DrvState) (s : BumpState) (ev : EditorEv)
    (hinv : BumpInv ds s) (hstep : drvStep ds ev = some ds') :
    BumpInv ds' (bumpStep s ev) ∧ s.completed <+: (bumpStep s ev).completed := by
  cases ev with
  | enterDir p =>
    cases p with
    | none =>
      by_cases hg : ds.dirParent.isEmpty
      · simp only [drvStep] at hstep
        rw [if_pos hg] at hstep
        rw [← Option.some.inj hstep]
        exact bump_enterDir_root ds s hinv (List.isEmpty_iff.mp hg)
      · simp only [drvStep] at hstep
        rw [if_neg hg] at hstep
        exact Option.noConfusion hstep
    | some p =>
      by_cases hg : p < ds.dirParent.length ∧ ds.dirClosed.getD p true = false
      · simp only [drvStep] at hstep
        rw [if_pos hg] at hstep
        rw [← Option.some.inj hstep]
        exact bump_enterDir ds s p ⟨hinv.len_dirs, hinv.len_closed, hinv.len_files,
          hinv.parent_eq, hinv.parent_lt, hinv.file_dir_lt, hinv.rc_eq,
          hinv.completed_iff, hinv.completed_nodup, hinv.completed_lt⟩ hg.1 hg.2
      · simp only [drvStep] at hstep
        rw [if_neg hg] at hstep
        exact Option.noConfusion hstep
  | enterFile d =>
    by_cases hg : d < ds.dirParent.length ∧ ds.dirClosed.getD d true = false
    · simp only [drvStep] at hstep
      rw [if_pos hg] at hstep
      rw [← Option.some.inj hstep]
      exact bump_enterFile ds s d hinv hg.1 hg.2
    · simp only [drvStep] at hstep
      rw [if_neg hg] at hstep
      exact Option.noConfusion hstep
  | closeDir d =>
    by_cases hg : d < ds.dirParent.length ∧ ds.dirClosed.getD d true = false
    · simp only [drvStep] at hstep
      rw [if_pos hg] at hstep
      rw [← Option.some.inj hstep]
      exact bump_closeDir ds s d hinv hg.1 hg.2
    · simp only [drvStep] at hstep
      rw [if_neg hg] at hstep
      exact Option.noConfusion hstep
  | closeFile f d =>
    by_cases hg : f < ds.fileDir.length ∧ ds.fileDir.getD f 0 = d
        ∧ ds.fileClosed.getD f true = false
    · simp only [drvStep] at hstep
      rw [if_pos hg] at hstep
      rw [← Option.some.inj hstep]
      exact bump_closeFile ds s f d hinv hg.1 hg.2.1 hg.2.2
    · simp only [drvStep] at hstep
      rw [if_neg hg] at hstep
      exact Option.noConfusion hstep

/-- The invariant holds of the empty edit. -/
theorem bumpInv_init : BumpInv drvInit bumpInit := by
  refine ⟨rfl, rfl, rfl, ?_, ?_, ?_, ?_, ?_, List.nodup_nil, ?_⟩ <;>
    intro d hd <;> simp [drvInit, bumpInit] at hd

/-- Running any protocol-accepted trace from a state satisfying the
invariant preserves it, and the completion log only grows. -/
theorem bump_run_preserves (t : List EditorEv) :
    ∀ (ds : DrvState) (s : BumpState), BumpInv ds s →
    ∀ ds', drvRunFrom ds t = some ds' →
    BumpInv ds' (bumpRunFrom s t)
    ∧ s.completed <+: (bumpRunFrom s t).completed := by
  induction t with
  | nil =>
    intro ds s hinv ds' hrun
    simp only [drvRunFrom, Option.some.injEq] at hrun
    subst hrun
    exact ⟨hinv, List.prefix_refl _⟩
  | cons ev evs ih =>
    intro ds s hinv ds' hrun
    simp only [drvRunFrom] at hrun
    cases hstep : drvStep ds ev with
    | none =>
      rw [hstep] at hrun
      exact Option.noConfusion hrun
    | some ds1 =>
      rw [hstep] at hrun
      have h1 := bump_step_preserves ds ds1 s ev hinv hstep
      have h2 := ih ds1 (bumpStep s ev) h1.1 ds' hrun
      exact ⟨h2.1, h1.2.trans h2.2⟩

/-- The invariant holds after every protocol-accepted trace. -/
theorem bumpInv_of_run (t : List EditorEv) (ds : DrvState)
    (hrun : drvRunFrom drvInit t = some ds) :
    BumpInv ds (bumpRunFrom bumpInit t) :=
  (bump_run_preserves t drvInit bumpInit bumpInv_init ds hrun).1

/-- If a filtered count over a range is zero, the predicate is false
throughout the range. -/
theorem rangeCount_all_false (n : Nat) (p : Nat → Bool)
    (h : ((List.range n).filter p).length = 0) :
    ∀ i, i < n → p i = false := by
  intro i hi
  cases hpc : p i with
  | false => rfl
  | true =>
    exfalso
    have hmem : i ∈ (List.range n).filter p :=
      List.mem_filter.mpr ⟨List.mem_range.mpr hi, hpc⟩
    rw [List.length_eq_zero] at h
    rw [h] at hmem
    exact absurd hmem (List.not_mem_nil i)

/-- Every position of an all-true boolean list reads true. -/
theorem all_getD_true (l : List Bool) (h : l.all (fun b => b) = true) :
    ∀ i, l.getD i true = true := by
  induction l with
  | nil => intro i; cases i <;> rfl
  | cons b bs ih =>
    intro i
    rw [List.all_cons, Bool.and_eq_true] at h
    obtain ⟨hb, hbs⟩ := h
    cases i with
    | zero => exact hb
    | succ i => exact ih hbs i

/-- What membership in the completion log means: the directory has closed,
every file directly inside it has closed, and every child directory has
itself completed. -/
theorem completed_facts (ds : DrvState) (s : BumpState) (hinv : BumpInv ds s)
    (d : Nat) (hd : d ∈ s.completed) :
    ds.dirClosed.getD d true = true
    ∧ (∀ f, f < ds.fileDir.length → ds.fileDir.getD f 0 = d →
        ds.fileClosed.getD f true = true)
    ∧ (∀ c, c < ds.dirParent.length → ds.dirParent.getD c none = some d →
        c ∈ s.completed) := by
  have hdlt : d < s.dirs.length := hinv.completed_lt d hd
  have hform : rcFormula ds s.completed d = 0 := (hinv.completed_iff d hdlt).mp hd
  unfold rcFormula at hform
  have hofz : openFileCount ds d = 0 := by omega
  have hocz : openChildCount ds s.completed d = 0 := by omega
  unfold openFileCount at hofz
  unfold openChildCount at hocz
  refine ⟨?_, ?_, ?_⟩
  · cases hb : ds.dirClosed.getD d true with
    | true => rfl
    | false =>
      exfalso
      rw [hb] at hform
      simp at hform
  · intro f hf hfd
    have hp := rangeCount_all_false ds.fileDir.length _ hofz f hf
    have hp' : (decide (ds.fileDir.getD f 0 = d)
        && decide (ds.fileClosed.getD f true = false)) = false := hp
    rw [decide_eq_true hfd, Bool.true_and] at hp'
    have hnf := of_decide_eq_false hp'
    cases hb : ds.fileClosed.getD f true with
    | true => rfl
    | false => exact absurd hb hnf
  · intro c hc hpc
    have hp := rangeCount_all_false ds.dirParent.length _ hocz c hc
    have hp' : (decide (ds.dirParent.getD c none = some d)
        && decide (c ∉ s.completed)) = false := hp
    rw [decide_eq_true hpc, Bool.true_and] at hp'
    exact not_not.mp (of_decide_eq_false hp')

/-- The strict ancestors of directory `c`: its parent, grandparent, and so
on, collected by walking the parent pointers; `fuel` bounds the walk. -/
def ancChainFuel (ds : DrvState) : Nat → Nat → List Nat
  | 0, _ => []
  | fuel + 1, c =>
    match ds.dirParent.getD c none with
    | none => []
    | some p => p :: ancChainFuel ds fuel p

/-- `a` lies strictly above `c` on the parent chain, making `c` a proper
descendant of `a`; fuel `c + 1` always suffices because parents precede
their children in entry order. -/
def isStrictAnc (ds : DrvState) (a c : Nat) : Prop :=
  a ∈ ancChainFuel ds (c + 1) c

/-- If an ancestor of `c` has completed then so has `c`: completion
propagates down the parent chain because a completed directory has no
uncompleted children. -/
theorem anc_completed (ds : DrvState) (s : BumpState) (hinv : BumpInv ds s) :
    ∀ fuel c, c < ds.dirParent.length → ∀ a, a ∈ ancChainFuel ds fuel c →
      a ∈ s.completed → c ∈ s.completed := by
  intro fuel
  induction fuel with
  | zero =>
    intro c _ a ha _
    simp [ancChainFuel] at ha
  | succ fuel ih =>
    intro c hc a ha hacomp
    simp only [ancChainFuel] at ha
    cases hpc : ds.dirParent.getD c none with
    | none =>
      rw [hpc] at ha
      have ha' : a ∈ ([] : List Nat) := ha
      simp at ha'
    | some p =>
      rw [hpc] at ha
      have ha' : a ∈ p :: ancChainFuel ds fuel p := ha
      have hp : p < c := hinv.parent_lt c hc p hpc
      cases List.mem_cons.mp ha' with
      | inl hap =>
        subst hap
        exact (completed_facts ds s hinv a hacomp).2.2 c hc hpc
      | inr hrest =>
        have hpcomp : p ∈ s.completed := ih p (by omega) a hrest hacomp
        exact (completed_facts ds s hinv p hpcomp).2.2 c hc hpc

/-- Once every directory and file of the edit has closed, every directory
has completed: an uncompleted directory would have an uncompleted child of
strictly larger index, and indices are bounded. -/
theorem all_completed_aux (ds : DrvState) (s : BumpState) (hinv : BumpInv ds s)
    (hall : allClosed ds = true) :
    ∀ k d, d < s.dirs.length → s.dirs.length - d ≤ k → d ∈ s.completed := by
  have hall2 : ds.dirClosed.all (fun b => b) = true
      ∧ ds.fileClosed.all (fun b => b) = true := by
    have h := hall
    unfold allClosed at h
    rw [Bool.and_eq_true] at h
    exact h
  have hdirsall := hall2.1
  have hfilesall := hall2.2
  intro k
  induction k with
  | zero =>
    intro d hd hk
    omega
  | succ k ih =>
    intro d hd hk
    by_cases hdc : d ∈ s.completed
    · exact hdc
    exfalso
    have hform : rcFormula ds s.completed d ≠ 0 :=
      fun h => hdc ((hinv.completed_iff d hd).mpr h)
    have hbit : ds.dirClosed.getD d true = true := all_getD_true _ hdirsall d
    have hofz : openFileCount ds d = 0 := by
      unfold openFileCount
      apply rangeCount_zero
      intro f hf
      show (decide (ds.fileDir.getD f 0 = d)
        && decide (ds.fileClosed.getD f true = false)) = false
      rw [all_getD_true _ hfilesall f]
      simp
    have hocpos : openChildCount ds s.completed d ≠ 0 := by
      unfold rcFormula at hform
      rw [hbit, hofz] at hform
      simp at hform
      omega
    have hlenpos : 0 < ((List.range ds.dirParent.length).filter
        (fun c => decide (ds.dirParent.getD c none = some d)
          && decide (c ∉ s.completed))).length := by
      unfold openChildCount at hocpos
      omega
    obtain ⟨c, hcmem⟩ := List.exists_mem_of_length_pos hlenpos
    have hcfacts := List.mem_filter.mp hcmem
    have hcrange : c < ds.dirParent.length := List.mem_range.mp hcfacts.1
    have hcpred : (decide (ds.dirParent.getD c none = some d)
        && decide (c ∉ s.completed)) = true := hcfacts.2
    rw [Bool.and_eq_true] at hcpred
    obtain ⟨h1, h2⟩ := hcpred
    have hparent : ds.dirParent.getD c none = some d := of_decide_eq_true h1
    have hcnot : c ∉ s.completed := of_decide_eq_true h2
    have hdc2 : d < c := hinv.parent_lt c hcrange d hparent
    have hcs : c < s.dirs.length := by rw [hinv.len_dirs]; exact hcrange
    have hcin : c ∈ s.completed := ih c hcs (by omega)
    exact hcnot hcin

/-- After a fully closed edit, every directory entered appears in the
completion log exactly once. -/
theorem all_completed (ds : DrvState) (s : BumpState) (hinv : BumpInv ds s)
    (hall : allClosed ds = true) (d : Nat) (hd : d < ds.dirParent.length) :
    s.completed.count d = 1 := by
  have hd' : d < s.dirs.length := by rw [hinv.len_dirs]; exact hd
  have hmem := all_completed_aux ds s hinv hall s.dirs.length d hd' (by omega)
  exact List.count_eq_one_of_mem hinv.completed_nodup hmem

/-- C1: For every protocol-accepted edit trace, at every point of the
edit each entered directory's bump reference count equals 1 for the
directory itself until its close, plus 1 per entered child directory not
yet completed, plus 1 per file entered in it and not yet closed — the
count is initialized to 1, incremented once per child directory and once
per file entered, and decremented at the directory's close, at each
file's close, and at each child's completion; `complete_directory` has
run for a directory exactly when that count has reached zero; a completed
directory is closed, its files are closed, and every proper descendant
directory is closed and completed with its files closed (so completion
happens only after every descendant has closed, recursing up the parent
pointers); and once the whole edit has closed, `complete_directory` has
run exactly once per directory entered. -/
theorem c1_bump_refcount (t : List EditorEv) (ds : DrvState)
    (hrun : drvRunFrom drvInit t = some ds) :
    (∀ n dsn, drvRunFrom drvInit (t.take n) = some dsn →
      ∀ d, d < (bumpRunFrom bumpInit (t.take n)).dirs.length →
        (getBdi (bumpRunFrom bumpInit (t.take n)) d).refCount
          = (rcFormula dsn (bumpRunFrom bumpInit (t.take n)).completed d : Int)
        ∧ (d ∈ (bumpRunFrom bumpInit (t.take n)).completed
            ↔ rcFormula dsn (bumpRunFrom bumpInit (t.take n)).completed d = 0)
        ∧ (d ∈ (bumpRunFrom bumpInit (t.take n)).completed →
            dsn.dirClosed.getD d true = true
            ∧ (∀ f, f < dsn.fileDir.length → dsn.fileDir.getD f 0 = d →
                dsn.fileClosed.getD f true = true)
            ∧ (∀ c, c < dsn.dirParent.length → isStrictAnc dsn d c →
                dsn.dirClosed.getD c true = true
                ∧ c ∈ (bumpRunFrom bumpInit (t.take n)).completed
                ∧ (∀ f, f < dsn.fileDir.length → dsn.fileDir.getD f 0 = c →
                    dsn.fileClosed.getD f true = true))))
    ∧ (allClosed ds = true → ∀ d, d < ds.dirParent.length →
        (bumpRunFrom bumpInit t).completed.count d = 1) := by
  constructor
  · intro n dsn hrunn d hd
    have hinv := bumpInv_of_run (t.take n) dsn hrunn
    refine ⟨hinv.rc_eq d hd, hinv.completed_iff d hd, ?_⟩
    intro hdc
    obtain ⟨hbit, hfiles, _⟩ := completed_facts dsn _ hinv d hdc
    refine ⟨hbit, hfiles, ?_⟩
    intro c hc hanc
    have hcin : c ∈ (bumpRunFrom bumpInit (t.take n)).completed :=
      anc_completed dsn _ hinv (c + 1) c hc d hanc hdc
    obtain ⟨hbitc, hfilesc, _⟩ := completed_facts dsn _ hinv c hcin
    exact ⟨hbitc, hcin, hfilesc⟩
  · intro hall d hd
    exact all_completed ds _ (bumpInv_of_run t ds hrun) hall d hd

/-- A small concrete edit: root, a child directory with one file, the
child closing before its file (postfix file close), then the root. -/
def c1Trace : List EditorEv :=
  [EditorEv.enterDir none, EditorEv.enterDir (some 0), EditorEv.enterFile 1,
   EditorEv.closeDir 1, EditorEv.closeFile 0 1, EditorEv.closeDir 0]

/-- The protocol state after `c1Trace`. -/
def c1Final : DrvState := ⟨[none, some 0], [true, true], [1], [true]⟩

theorem c1_bump_refcount_witness :
    drvRunFrom drvInit c1Trace = some c1Final
    ∧ allClosed c1Final = true
    ∧ (bumpRunFrom bumpInit c1Trace).completed.count 0 = 1
    ∧ (bumpRunFrom bumpInit c1Trace).completed.count 1 = 1 := by
  refine ⟨by decide, by decide, ?_, ?_⟩
  · exact (c1_bump_refcount c1Trace c1Final (by decide)).2 (by decide) 0 (by decide)
  · exact (c1_bump_refcount c1Trace c1Final (by decide)).2 (by decide) 1 (by decide)

end UpdateEditor
